import Mathlib

/-!
Verification development for the uk_address_matcher repository.

This file gives a shallow embedding of the two cores of the repository:

* the fragment/stage/pipeline builder (`uk_address_matcher/sql_pipeline/runner.py`
  and its duplicate `uk_address_matcher/core/sql_pipeline.py`): CTE queue,
  one-shot `spent` flag, alias rendering, materialised checkpoints;
* the deterministic match orchestrator
  (`uk_address_matcher/linking_model/exact_matching/matching_stages.py`) together
  with the two concrete stages (`annotate_exact_matches.py`, `resolve_with_trie.py`),
  modelled at the level of lists of rows with the SQL join/window semantics made
  explicit.

Randomness (`_uid`, which draws six random characters) is modelled by passing an
explicit stream of uid strings; engine calls (CREATE TEMP TABLE) are recorded in
an effect log.  The external trie primitives `build_suffix_trie` / `find_address`
are engine UDFs outside the repository and are taken as an opaque parameter.
-/

deriving instance DecidableEq for Except

/-- Successive replacement of every non-overlapping occurrence of `pat` by `rep`,
scanning left to right, as Python's `str.replace` and Lean's `String.replace` do.
An empty pattern never matches (the source never uses an empty placeholder). -/
def replaceChars (pat rep : List Char) : List Char → List Char
  | [] => []
  | c :: rest =>
    if pat ≠ [] ∧ pat.isPrefixOf (c :: rest) then
      rep ++ replaceChars pat rep ((c :: rest).drop pat.length)
    else
      c :: replaceChars pat rep rest
termination_by l => l.length
decreasing_by
  · simp only [List.length_drop]
    rename_i h
    cases pat with
    | nil => exact absurd rfl h.1
    | cons p ps => simp [List.length_cons]; omega
  · simp [List.length_cons]

/-- String wrapper for `replaceChars`; models `str.replace(pat, rep)`. -/
def replaceAll (s pat rep : String) : String :=
  ⟨replaceChars pat.data rep.data s.data⟩

/-- Left brace character as text (the placeholder delimiter in fragment templates). -/
def lbrace : String := "\x7b"

/-- Right brace character as text. -/
def rbrace : String := "\x7d"

/-- The reserved input placeholder token of a fragment template. -/
def inputTok : String := lbrace ++ "input" ++ rbrace

/-- Model of the helper `_slug`: lower-case the string and collapse every maximal
run of characters outside `[a-z0-9_]` into a single underscore. -/
def slug (s : String) : String :=
  (s.toLower.data.foldl
    (fun (acc : String × Bool) c =>
      if (('a' ≤ c ∧ c ≤ 'z') ∨ ('0' ≤ c ∧ c ≤ '9') ∨ c = '_') then
        (acc.1.push c, false)
      else if acc.2 then acc
      else (acc.1.push '_', true))
    ("", false)).1

/-- Model of `CTEStep`: a named fragment of query text that may reference the
reserved input placeholder and earlier same-stage fragment names. -/
structure CTEStep where
  name : String
  sql : String
deriving DecidableEq, Repr

/-- Model of `Stage` (the fields the renderer and the pipeline read; the
engine-side `registers`/`preludes` hooks are opaque side effects outside this
state model). -/
structure RStage where
  name : String
  steps : List CTEStep
  output : Option String
  checkpoint : Bool
deriving DecidableEq, Repr

/-- Model of the `CTEPipeline` object state: the queue of `(sql, alias)` pairs,
the one-shot `spent` flag, and the recorded materialised checkpoint blocks. -/
structure CPState where
  queue : List (String × String)
  spent : Bool
  materialisedBlocks : List (String × String)
deriving DecidableEq, Repr

/-- Model of `CTEPipeline.enqueue_sql`: appends to the queue, raising the
spent-pipeline error if the pipeline was already composed. -/
def enqueue_sql (sql outputTableName : String) (st : CPState) : Except String CPState :=
  if st.spent then
    .error "This pipeline has already been used (spent=True)."
  else
    .ok { st with queue := st.queue ++ [(sql, outputTableName)] }

/-- Model of `CTEPipeline._compose_with_sql_from`: renders the queue as one WITH
chain selecting from the last alias. -/
def composeWithSqlFrom (items : List (String × String)) : Except String String :=
  match items.getLast? with
  | none => .error "Cannot compose SQL from an empty CTE list."
  | some last =>
    .ok ("WITH\n"
      ++ String.intercalate ",\n\n" (items.map (fun p => p.2 ++ " AS (\n" ++ p.1 ++ "\n)"))
      ++ "\n\nSELECT * FROM " ++ last.2)

/-- Model of `CTEPipeline.generate_cte_pipeline_sql`.  Note the source sets
`self.spent = True` (when `mark_spent`) and then only checks for an empty queue;
it never checks whether the pipeline was already spent.  The returned pair is
the updated object state together with the result (the error on the empty-queue
path carries the mutated state, as in the Python original). -/
def generate_cte_pipeline_sql (markSpent : Bool) (st : CPState) :
    CPState × Except String String :=
  let st1 := { st with spent := markSpent || st.spent }
  if st1.queue = [] then (st1, .error "Empty pipeline.")
  else (st1, composeWithSqlFrom st1.queue)

/-- Model of the `CTEPipeline.output_table_name` property. -/
def output_table_name (st : CPState) : Except String String :=
  match st.queue.getLast? with
  | none => .error "Empty pipeline."
  | some p => .ok p.2

/-- Alias allocated for a fragment: `s{step_idx}_{slug(stage)}__{slug(frag)}`. -/
def mkAlias (stepIdx : Nat) (stageName fragName : String) : String :=
  "s" ++ toString stepIdx ++ "_" ++ slug stageName ++ "__" ++ slug fragName

/-- Replace, in declaration order, every `(name, alias)` placeholder of the
accumulated fragment-alias mapping inside a fragment's query text. -/
def applyAliases (sql : String) (aliases : List (String × String)) : String :=
  aliases.foldl (fun s kv => replaceAll s (lbrace ++ kv.1 ++ rbrace) kv.2) sql

/-- Recursive core of `render_step_to_ctes`: walks the fragments in declaration
order, threading the accumulated fragment-alias mapping, and returns the
rendered `(sql, alias)` pairs together with the final mapping. -/
def renderGo (sn : String) (idx : Nat) (prev : String) :
    List CTEStep → List (String × String) →
    List (String × String) × List (String × String)
  | [], fragAliases => ([], fragAliases)
  | fr :: rest, fragAliases =>
    let al := mkAlias idx sn fr.name
    let sql := applyAliases (replaceAll fr.sql inputTok prev) fragAliases
    let res := renderGo sn idx prev rest (fragAliases ++ [(fr.name, al)])
    ((sql, al) :: res.1, res.2)

/-- Model of `render_step_to_ctes(step, step_idx, prev_alias)`: instantiates the
templated fragments into concrete namespaced CTEs and resolves the stage's
output alias (`step.output` or the last fragment). -/
def render_step_to_ctes (step : RStage) (stepIdx : Nat) (prevAlias : String) :
    Except String (List (String × String) × String) :=
  let r := renderGo step.name stepIdx prevAlias step.steps []
  match step.output with
  | some o =>
    match r.2.lookup o with
    | some a => .ok (r.1, a)
    | none => .error ("KeyError: " ++ o)
  | none =>
    match step.steps.getLast? with
    | none => .error "IndexError: list index out of range"
    | some lastFr =>
      match r.2.lookup lastFr.name with
      | some a => .ok (r.1, a)
      | none => .error ("KeyError: " ++ lastFr.name)

/-- Draw one uid from the explicit stream modelling `_uid()`'s random draws. -/
def takeUid : List String → String × List String
  | [] => ("", [])
  | u :: r => (u, r)

/-- Model of the `DuckDBPipeline` object state: the inherited `CTEPipeline`
state plus the registered source name, running output alias, stage counter,
the remaining uid stream, the log of executed engine statements, and the
names registered on the connection. -/
structure DPState where
  cp : CPState
  srcName : String
  currentOutputAlias : String
  stepCounter : Nat
  uids : List String
  executedStatements : List String
  registered : List String
deriving DecidableEq, Repr

/-- Model of `DuckDBPipeline.__init__`: registers the input relation (under its
alias when it has one, otherwise under `src_{uid}`), then enqueues the synthetic
seed entry `SELECT * FROM src` under the alias `seed_{uid}` with a fresh random
uid. -/
def duckInit (srcAlias : Option String) (uids : List String) : DPState :=
  let srcDraw : String × List String :=
    match srcAlias with
    | some a => (a, uids)
    | none =>
      let d := takeUid uids
      ("src_" ++ d.1, d.2)
  let d2 := takeUid srcDraw.2
  let seed := "seed_" ++ d2.1
  { cp := { queue := [("SELECT * FROM " ++ srcDraw.1, seed)], spent := false,
            materialisedBlocks := [] },
    srcName := srcDraw.1,
    currentOutputAlias := seed,
    stepCounter := 0,
    uids := d2.2,
    executedStatements := [],
    registered := [srcDraw.1] }

/-- Enqueue a list of rendered CTEs one after another. -/
def enqueueAll (items : List (String × String)) (st : CPState) : Except String CPState :=
  items.foldlM (fun s it => enqueue_sql it.1 it.2 s) st

/-- Model of `DuckDBPipeline._materialise_checkpoint`: composes the current
queue without marking the pipeline spent, records the block, executes a
CREATE TEMP TABLE under a fresh `__seg_{uid}` name, clears the queue and
re-seeds it with a single entry reading the materialised relation. -/
def materialiseCheckpoint (st : DPState) : Except String DPState :=
  let g := generate_cte_pipeline_sql false st.cp
  match g.2 with
  | .error e => .error e
  | .ok sql =>
    let d1 := takeUid st.uids
    let tmp := "__seg_" ++ d1.1
    let cp2 := { g.1 with
      materialisedBlocks := g.1.materialisedBlocks ++ [(sql, tmp)],
      queue := ([] : List (String × String)) }
    let d2 := takeUid d1.2
    let seed := "seed_" ++ d2.1
    match enqueue_sql ("SELECT * FROM " ++ tmp) seed cp2 with
    | .error e => .error e
    | .ok cp3 =>
      .ok { st with
        cp := cp3,
        currentOutputAlias := seed,
        uids := d2.2,
        executedStatements := st.executedStatements ++
          ["CREATE OR REPLACE TEMP TABLE " ++ tmp ++ " AS " ++ sql] }

/-- Model of `DuckDBPipeline.add_step`: renders the stage's fragments against
the current output alias, enqueues them, advances the stage counter, and
materialises a checkpoint when the stage requests one.  (The engine-side
`registers`/`preludes` hooks act on the connection, not on this state.) -/
def addStep (step : RStage) (st : DPState) : Except String DPState := do
  let prev ← output_table_name st.cp
  let r ← render_step_to_ctes step st.stepCounter prev
  let cp' ← enqueueAll r.1 st.cp
  let st' := { st with
    cp := cp'
    currentOutputAlias := r.2
    stepCounter := st.stepCounter + 1 }
  if step.checkpoint then materialiseCheckpoint st' else .ok st'

/-- Add a list of stages in order (the caller's loop over `add_step`). -/
def addSteps : List RStage → DPState → Except String DPState
  | [], st => .ok st
  | s :: rest, st => do
    let st' ← addStep s st
    addSteps rest st'

/-- Build a pipeline by adding the given stages in order to a freshly
initialised `DuckDBPipeline`. -/
def buildPipeline (srcAlias : Option String) (steps : List RStage)
    (uids : List String) : Except String DPState :=
  addSteps steps (duckInit srcAlias uids)

/-- The composed query text of a fully built pipeline (the final composition,
marking the pipeline spent), as produced by two independent runs for claim C6. -/
def composedPipelineText (srcAlias : Option String) (steps : List RStage)
    (uids : List String) : Except String String := do
  let st ← buildPipeline srcAlias steps uids
  (generate_cte_pipeline_sql true st.cp).2

/-- Match reason vocabulary.  Modelled from the spec: the module
`uk_address_matcher/sql_pipeline/match_reasons.py` (class `MatchReason`) is not
under src/; spec section 6 fixes the closed enumeration `EXACT`, `TRIE`,
`UNMATCHED`. -/
inductive MatchReason where
  | EXACT
  | TRIE
  | UNMATCHED
deriving DecidableEq, Repr

/-- Row of the fuzzy (messy) input relation.  Besides the validated columns
(`unique_id`, `original_address_concat`, `postcode`, `ukam_address_id`) the
stage SQL reads `address_tokens` and the running annotation columns
`resolved_canonical_id`, `match_reason`, `canonical_ukam_address_id` (nullable,
hence `Option`). -/
structure FuzzyRow where
  unique_id : Nat
  ukam_address_id : Nat
  original_address_concat : String
  postcode : String
  address_tokens : List String
  resolved_canonical_id : Option Nat
  match_reason : Option MatchReason
  canonical_ukam_address_id : Option Nat
deriving DecidableEq, Repr

/-- Row of the restricted canonical relation as consumed by the stage SQL:
`canonical_unique_id` (the canonical public id), the internal row id
`ukam_address_id`, the join keys and the token list. -/
structure CanonRow where
  canonical_unique_id : Nat
  ukam_address_id : Nat
  original_address_concat : String
  postcode : String
  address_tokens : List String
deriving DecidableEq, Repr

/-- The exact-match join key of a canonical row: `(original_address_concat, postcode)`. -/
def canonKey (c : CanonRow) : String × String :=
  (c.original_address_concat, c.postcode)

/-- The exact-match join key of a fuzzy row. -/
def fuzzyKey (f : FuzzyRow) : String × String :=
  (f.original_address_concat, f.postcode)

/-- Model of `LEFT(p, LENGTH(p) - 1)`: the postcode with its final character
dropped (the trie bucket key). -/
def postcodeGroup (p : String) : String :=
  p.take (p.length - 1)

/-- Keep condition of the deduplication window
`ROW_NUMBER() OVER (PARTITION BY original_address_concat, postcode ORDER BY
canonical_unique_id) = 1` in `_annotate_exact_matches`: the row is kept when it
strictly beats every earlier same-key row and weakly beats every later same-key
row on `canonical_unique_id` (ties on the ordering key broken by arrival
order). -/
def keepCond (prev : List CanonRow) (c : CanonRow) (rest : List CanonRow) : Bool :=
  prev.all (fun p => !(decide (canonKey p = canonKey c)) ||
              decide (c.canonical_unique_id < p.canonical_unique_id))
  && rest.all (fun r => !(decide (canonKey r = canonKey c)) ||
              decide (c.canonical_unique_id ≤ r.canonical_unique_id))

/-- Recursive core of the canonical-side deduplication. -/
def rn1Go (prev : List CanonRow) : List CanonRow → List CanonRow
  | [] => []
  | c :: rest =>
    (if keepCond prev c rest then [c] else []) ++ rn1Go (prev ++ [c]) rest

/-- The deduplicated canonical side of the exact-match join: exactly the rows
with `rn = 1` in their `(original_address_concat, postcode)` partition. -/
def dedupCanonical (canon : List CanonRow) : List CanonRow :=
  rn1Go [] canon

/-- Model of the `annotated_exact_matches` CTE of `_annotate_exact_matches`:
the fuzzy input LEFT JOINed to the deduplicated canonical side on
address + postcode; a hit overwrites `resolved_canonical_id` with the canonical
id and the match reason with `EXACT`, a miss carries the input annotation
columns through. -/
def annotateExactMatches (fuzzy : List FuzzyRow) (canonR : List CanonRow) :
    List FuzzyRow :=
  (fuzzy.map (fun f =>
    let cs := (dedupCanonical canonR).filter (fun c => decide (canonKey c = fuzzyKey f))
    if cs.isEmpty then [f]
    else cs.map (fun c =>
      { f with resolved_canonical_id := some c.canonical_unique_id,
               match_reason := some MatchReason.EXACT }))).flatten

/-- Canonical resolution of one fuzzy row by the exact-match stage: the unique
deduplicated canonical row sharing its key, when one exists. -/
def exactAnnRow (canonR : List CanonRow) (f : FuzzyRow) : FuzzyRow :=
  match (dedupCanonical canonR).find? (fun c => decide (canonKey c = fuzzyKey f)) with
  | none => f
  | some c =>
    { f with resolved_canonical_id := some c.canonical_unique_id,
             match_reason := some MatchReason.EXACT }

/-- Type of the external `find_address` trie-lookup UDF: fuzzy token sequence
and the bucket's trie (modelled by its `(ukam_address_id, address_tokens)`
content, which is what `build_suffix_trie` aggregates) to an optional canonical
`ukam_address_id`.  The primitive lives in the query engine, outside the
repository (spec section 1), so it is a parameter of the embedding. -/
def FindAddress : Type :=
  List String → List (Nat × List String) → Option Nat

/-- Model of the `postcode_group_tries` CTE: one trie per distinct
`postcode_group` of the restricted canonical rows, aggregating the bucket's
`(ukam_address_id, address_tokens)` pairs. -/
def trieBuckets (canonR : List CanonRow) : List (String × List (Nat × List String)) :=
  ((canonR.map (fun c => postcodeGroup c.postcode)).dedup).map
    (fun g => (g, (canonR.filter (fun c => postcodeGroup c.postcode = g)).map
      (fun c => (c.ukam_address_id, c.address_tokens))))

/-- Model of the `raw_trie_matches` CTE: each fuzzy row joined to the trie of
its own postcode group, with `find_address` applied to its token sequence. -/
def rawTrieMatches (fa : FindAddress) (fuzzy : List FuzzyRow)
    (buckets : List (String × List (Nat × List String))) : List (Nat × Option Nat) :=
  (fuzzy.map (fun f =>
    (buckets.filter (fun b => b.1 = postcodeGroup f.postcode)).map
      (fun b => (f.ukam_address_id, fa f.address_tokens b.2)))).flatten

/-- Model of the `trie_match_candidates` CTE: non-null raw matches joined back
to the restricted canonical rows on the canonical `ukam_address_id` to recover
`canonical_unique_id`; entries are `(fuzzy ukam id, canonical ukam id,
canonical_unique_id)`. -/
def trieMatchCandidates (canonR : List CanonRow) (raws : List (Nat × Option Nat)) :
    List (Nat × Nat × Nat) :=
  (raws.map (fun r =>
    match r.2 with
    | none => []
    | some cu =>
      (canonR.filter (fun c => c.ukam_address_id = cu)).map
        (fun c => (r.1, cu, c.canonical_unique_id)))).flatten

/-- Model of the `fuzzy_with_resolved_matches` CTE of `_resolve_with_trie`: the
fuzzy input LEFT JOINed to the trie match candidates on its row id; a hit
overwrites `resolved_canonical_id` with the recovered canonical id and the
match reason with `TRIE`. -/
def resolveWithTrie (fa : FindAddress) (fuzzy : List FuzzyRow)
    (canonR : List CanonRow) : List FuzzyRow :=
  let cands := trieMatchCandidates canonR (rawTrieMatches fa fuzzy (trieBuckets canonR))
  (fuzzy.map (fun f =>
    let cs := cands.filter (fun m => m.1 = f.ukam_address_id)
    if cs.isEmpty then [f]
    else cs.map (fun m =>
      { f with resolved_canonical_id := some m.2.2,
               match_reason := some MatchReason.TRIE }))).flatten

/-- Modelled from the spec: the pre-filter stage factory
`_restrict_canonical_to_fuzzy_postcodes("exact", "fuzzy_addresses")`
(`input_filters.py` is not under src/).  Spec sections 4.4 step 3 and 4.5 step 1:
the canonical reference set is pre-filtered to only the postcodes present in
the stage's fuzzy input. -/
def restrictCanonicalExact (fuzzy : List FuzzyRow) (canon : List CanonRow) :
    List CanonRow :=
  canon.filter (fun c => fuzzy.any (fun f => f.postcode = c.postcode))

/-- Modelled from the spec: the pre-filter stage factory
`_restrict_canonical_to_fuzzy_postcodes("drop_last_char", "fuzzy_addresses")`
(`input_filters.py` is not under src/).  Spec sections 4.5 steps 1-2: canonical
rows are restricted to the postcode groups (postcode with trailing character
dropped) appearing among the fuzzy input. -/
def restrictCanonicalDropLastChar (fuzzy : List FuzzyRow) (canon : List CanonRow) :
    List CanonRow :=
  canon.filter (fun c =>
    fuzzy.any (fun f => postcodeGroup f.postcode = postcodeGroup c.postcode))

/-- The stage names of the registry in `matching_stages.py`. -/
inductive StageName where
  | exact_matches
  | trie
deriving DecidableEq, Repr

/-- The string value of a stage name (the `StageName` enum values). -/
def stageValue : StageName → String
  | .exact_matches => "exact_matches"
  | .trie => "trie"

/-- Parse a string into a member of the `StageName` enum (`StageName(item)`). -/
def parseStageName (s : String) : Option StageName :=
  if s = "exact_matches" then some .exact_matches
  else if s = "trie" then some .trie
  else none

/-- The registry keys in declaration order. -/
def stageRegistryNames : List StageName :=
  [.exact_matches, .trie]

/-- The `_ALWAYS_ON` tuple. -/
def alwaysOn : List StageName :=
  [.exact_matches]

/-- Model of `available_deterministic_stages()`: registry keys that are not
always on. -/
def availableDeterministicStages : List StageName :=
  stageRegistryNames.filter (fun s => decide (s ∉ alwaysOn))

/-- The message raised for an unknown stage name, listing the valid enableable
stages (Python renders `{item!r}` with single quotes). -/
def unknownStageMessage (item : String) : String :=
  "Unknown exact matching stage: '" ++ item ++ "'. Available stages: "
    ++ String.intercalate ", " (availableDeterministicStages.map stageValue)

/-- Recursive core of `_normalise_enabled_stages`: validates the items in
order, accumulating the already-seen stages. -/
def normGo : List String → List StageName → Except String (List StageName)
  | [], out => .ok out
  | item :: rest, out =>
    match parseStageName item with
    | none => .error (unknownStageMessage item)
    | some name =>
      if name ∈ alwaysOn then
        .error (stageValue name ++ " is always enabled and should not be provided.")
      else if name ∈ out then
        .error ("Duplicate exact matching stage specified: " ++ stageValue name)
      else normGo rest (out ++ [name])

/-- Model of `_normalise_enabled_stages`: `None` means no optional stages;
otherwise each item is parsed and checked against the always-on set and the
already-seen set, preserving order. -/
def normaliseEnabledStages : Option (List String) → Except String (List StageName)
  | none => .ok []
  | some l => normGo l []

/-- Model of the ordered stage list construction in
`run_deterministic_match_pass`: always-on stages first, then each normalised
optional stage not already present. -/
def buildOrdered (ns : List StageName) : List StageName :=
  ns.foldl (fun acc s => if s ∈ acc then acc else acc ++ [s]) alwaysOn

/-- Model of `_get_unmatched_subset`: the fuzzy rows whose row id does not
appear in the accumulated matches (anti-join on `ukam_address_id`); the whole
input when no matches have been accumulated yet. -/
def getUnmatchedSubset (fuzzy : List FuzzyRow) (matchesUnion : Option (List FuzzyRow)) :
    List FuzzyRow :=
  match matchesUnion with
  | none => fuzzy
  | some mu => fuzzy.filter (fun f => mu.all (fun m => m.ukam_address_id ≠ f.ukam_address_id))

/-- Model of `_run_stage`: builds the stage's pipeline (pre-filter stage, then
the stage factory bound to the unmatched fuzzy subset and the canonical search
space) and evaluates it.  The `create_sql_pipeline` wrapper itself is not under
src/; per the spec it only composes and executes the stage's fragments against
the engine, so evaluation is the stage's CTE semantics. -/
def runStage (fa : FindAddress) (stageName : StageName)
    (fuzzyUnmatched : List FuzzyRow) (canon : List CanonRow) : List FuzzyRow :=
  match stageName with
  | .exact_matches =>
    annotateExactMatches fuzzyUnmatched (restrictCanonicalExact fuzzyUnmatched canon)
  | .trie =>
    resolveWithTrie fa fuzzyUnmatched (restrictCanonicalDropLastChar fuzzyUnmatched canon)

/-- The stage loop of `run_deterministic_match_pass`: for each stage in order,
computes the unmatched subset, breaks when it is empty, otherwise runs the
stage and folds the whole stage result into the accumulated union (DuckDB's
relational `union`; modelled as append — id membership is unaffected and the
loop never produces duplicate rows).  Returns the final union and the trace of
`(stage, stage input)` pairs actually executed. -/
def runLoop (fa : FindAddress) (fuzzy : List FuzzyRow) (canon : List CanonRow) :
    List StageName → Option (List FuzzyRow) →
    Option (List FuzzyRow) × List (StageName × List FuzzyRow)
  | [], mu => (mu, [])
  | s :: rest, mu =>
    let um := getUnmatchedSubset fuzzy mu
    if um.isEmpty then (mu, [])
    else
      let sr := runStage fa s um canon
      let mu' := match mu with
        | none => some sr
        | some m => some (m ++ sr)
      let res := runLoop fa fuzzy canon rest mu'
      (res.1, (s, um) :: res.2)

/-- Column names of the fuzzy input relation: the validated columns plus the
annotation columns the stage SQL reads (the fields of `FuzzyRow`). -/
def fuzzyColumns : List String :=
  ["unique_id", "ukam_address_id", "original_address_concat", "postcode",
   "address_tokens", "resolved_canonical_id", "match_reason",
   "canonical_ukam_address_id"]

/-- Column names of the narrow `matched_records` projection `_finalise_results`
takes of the accumulated matches. -/
def matchedRecordsColumns : List String :=
  ["ukam_address_id", "resolved_canonical_id", "canonical_ukam_address_id",
   "match_reason"]

/-- Output column names of a relational join on a USING column: the join
column is deduplicated, every other column of both sides keeps its bare
name. -/
def joinUsingColumns (left right : List String) (key : String) : List String :=
  left ++ right.filter (fun c => c ≠ key)

/-- DuckDB binder resolution of an unqualified column reference: an error when
the name is absent or appears more than once among the relation's columns (the
qualification hint of the engine's message is elided). -/
def resolveUnqualified (cols : List String) (name : String) : Except String String :=
  match cols.filter (fun c => c = name) with
  | [] => .error ("Binder Error: Referenced column \"" ++ name ++ "\" not found")
  | [c] => .ok c
  | _ => .error ("Binder Error: Ambiguous reference to column name \"" ++ name ++ "\"")

/-- The unqualified column names referenced by the final reorder select of
`_finalise_results` (`unique_id, resolved_canonical_id, * EXCLUDE (...),
canonical_ukam_address_id, match_reason`), in select-list order. -/
def finaliseSelectColumns : List String :=
  ["unique_id", "resolved_canonical_id", "canonical_ukam_address_id",
   "match_reason"]

/-- Bind a select list left to right, propagating the first binder error. -/
def bindSelectList (cols : List String) : List String → Except String Unit
  | [] => .ok ()
  | n :: rest =>
    match resolveUnqualified cols n with
    | .error e => .error e
    | .ok _ => bindSelectList cols rest

/-- The binder error `_finalise_results` hits: after its USING left join both
sides still carry `resolved_canonical_id` (and the other two annotation
columns) — the renaming promised by the source comment is absent — so the
first duplicated name of the select list is ambiguous. -/
def ambiguousColumnMessage : String :=
  "Binder Error: Ambiguous reference to column name \"resolved_canonical_id\""

/-- Model of `_finalise_results`: the narrow projection of the accumulated
matches is LEFT JOINed (USING `ukam_address_id`) back onto the original fuzzy
input, and the final reorder select references `resolved_canonical_id`,
`canonical_ukam_address_id` and `match_reason` unqualified.  Both join sides
carry those three columns, so binding the select list raises before any rows
are produced; the `.ok` branch (the would-be per-row projection, matched rows
overwriting the annotation columns, misses carrying nulls) is unreachable. -/
def finaliseResults (fuzzy mu : List FuzzyRow) : Except String (List FuzzyRow) :=
  match bindSelectList
      (joinUsingColumns fuzzyColumns matchedRecordsColumns "ukam_address_id")
      finaliseSelectColumns with
  | .error e => .error e
  | .ok _ =>
    .ok ((fuzzy.map (fun f =>
      let ms := mu.filter (fun m => m.ukam_address_id = f.ukam_address_id)
      if ms.isEmpty then
        [{ f with resolved_canonical_id := none, canonical_ukam_address_id := none,
                  match_reason := none }]
      else ms.map (fun m =>
        { f with resolved_canonical_id := m.resolved_canonical_id,
                 canonical_ukam_address_id := m.canonical_ukam_address_id,
                 match_reason := m.match_reason }))).flatten)

/-- Result of one deterministic match pass: the final annotated output, the
accumulated matches union, and the executed-stage trace. -/
structure PassResult where
  output : List FuzzyRow
  matchesUnion : Option (List FuzzyRow)
  trace : List (StageName × List FuzzyRow)
deriving DecidableEq, Repr

/-- Model of `run_deterministic_match_pass` (with `explain = False` and no
debug options; the schema validation of `validate_tables` is a static property
of the row types here): normalises the enabled stage names, builds the ordered
stage list, runs the stage loop, and — when any matches were accumulated —
calls `_finalise_results`, whose binder error propagates out of the call as it
does in the source; only when no stage ran (empty input) is the fuzzy relation
returned unchanged. -/
def runDeterministicMatchPass (fa : FindAddress) (fuzzy : List FuzzyRow)
    (canon : List CanonRow) (enabled : Option (List String)) :
    Except String PassResult := do
  let ns ← normaliseEnabledStages enabled
  let r := runLoop fa fuzzy canon (buildOrdered ns) none
  match r.1 with
  | none => .ok { output := fuzzy, matchesUnion := none, trace := r.2 }
  | some m =>
    match finaliseResults fuzzy m with
    | .error e => .error e
    | .ok out => .ok { output := out, matchesUnion := some m, trace := r.2 }

/-- The union of the outputs of the first `k` traced stage executions,
reconstructed from the trace (each stage's output is a function of its recorded
input). -/
def priorOutputs (fa : FindAddress) (canon : List CanonRow)
    (tr : List (StageName × List FuzzyRow)) (k : Nat) : List FuzzyRow :=
  ((tr.take k).map (fun p => runStage fa p.1 p.2 canon)).flatten

/-- The alias mapping produced for a list of fragments of one stage. -/
def aliasesOfL (sn : String) (idx : Nat) (l : List CTEStep) : List (String × String) :=
  l.map (fun fr => (fr.name, mkAlias idx sn fr.name))

/-- The fragment-alias mapping visible to the `i`-th fragment of a stage: the
aliases of the fragments declared before it. -/
def fragAliasList (step : RStage) (idx i : Nat) : List (String × String) :=
  aliasesOfL step.name idx (step.steps.take i)

/-- Concrete pipeline state used to exercise the spent-pipeline behaviour. -/
def c5ExampleState : CPState :=
  { queue := [("SELECT 1", "a")], spent := false, materialisedBlocks := [] }

/-- Concrete one-stage pipeline used to exercise composed-text determinism. -/
def c6Steps : List RStage :=
  [{ name := "clean",
     steps := [{ name := "frag0", sql := "SELECT * FROM " ++ inputTok }],
     output := none, checkpoint := false }]

/-- Concrete two-fragment stage exercising input and same-stage references. -/
def c7ExampleStage : RStage :=
  { name := "stg",
    steps := [{ name := "a", sql := "SELECT * FROM " ++ inputTok },
              { name := "b",
                sql := "SELECT * FROM " ++ lbrace ++ "a" ++ rbrace ++ " JOIN " ++ inputTok }],
    output := none, checkpoint := false }

/-- Concrete checkpointed stage used to exercise `add_step` with
`materialise_checkpoint` set. -/
def c8ExampleStage : RStage :=
  { name := "stg",
    steps := [{ name := "f1", sql := "SELECT 1" }],
    output := none, checkpoint := true }

/-- Concrete fuzzy row for the Layer B witnesses. -/
def wFuzzyA : FuzzyRow :=
  { unique_id := 1, ukam_address_id := 11, original_address_concat := "1 A ST",
    postcode := "AA1 1AA", address_tokens := ["1", "A", "ST"],
    resolved_canonical_id := none, match_reason := some MatchReason.UNMATCHED,
    canonical_ukam_address_id := none }

/-- Concrete fuzzy row (no canonical counterpart) for the Layer B witnesses. -/
def wFuzzyB : FuzzyRow :=
  { unique_id := 2, ukam_address_id := 12, original_address_concat := "2 B ST",
    postcode := "AA1 1AB", address_tokens := ["2", "B", "ST"],
    resolved_canonical_id := none, match_reason := some MatchReason.UNMATCHED,
    canonical_ukam_address_id := none }

/-- Concrete canonical row with a large id, duplicated key. -/
def wCanonHi : CanonRow :=
  { canonical_unique_id := 100, ukam_address_id := 51,
    original_address_concat := "1 A ST", postcode := "AA1 1AA",
    address_tokens := ["1", "A", "ST"] }

/-- Concrete canonical row with the small id, duplicated key. -/
def wCanonLo : CanonRow :=
  { canonical_unique_id := 90, ukam_address_id := 52,
    original_address_concat := "1 A ST", postcode := "AA1 1AA",
    address_tokens := ["1", "A", "ST"] }

/-- Trie lookup stub used by the witnesses (the external primitive is
irrelevant to the properties witnessed). -/
def faNone : FindAddress := fun _ _ => none

/-- Concrete singleton canonical list whose only row matches `wFuzzyA`. -/
def wCanonList : List CanonRow := [wCanonLo]


/-- Claim C5 counterexample: on a pipeline whose composed query has already been
generated once, a second call to `generate_cte_pipeline_sql` returns the query
text again instead of raising the spent-pipeline error. -/
theorem c5_counterexample :
    (generate_cte_pipeline_sql true (generate_cte_pipeline_sql true c5ExampleState).1).2
      = .ok "WITH\na AS (\nSELECT 1\n)\n\nSELECT * FROM a" := by
  rfl

/-- Claim C5 (amended): generating the composed query marks the pipeline spent,
but a second generation call succeeds and returns the identical text; the spent
flag only makes subsequent `enqueue_sql` calls raise the spent-pipeline
error. -/
theorem c5_spent_pipeline_amended (st : CPState) (h : st.queue ≠ []) :
    (generate_cte_pipeline_sql true st).1.spent = true ∧
    (∃ sql, (generate_cte_pipeline_sql true st).2 = .ok sql ∧
      (generate_cte_pipeline_sql true (generate_cte_pipeline_sql true st).1).2 = .ok sql) ∧
    (∀ q a, enqueue_sql q a (generate_cte_pipeline_sql true st).1 =
      .error "This pipeline has already been used (spent=True).") := by
  have hlast : ∃ p, st.queue.getLast? = some p := by
    cases hq : st.queue.getLast? with
    | none => exact absurd (List.getLast?_eq_none_iff.mp hq) h
    | some p => exact ⟨p, rfl⟩
  obtain ⟨p, hp⟩ := hlast
  refine ⟨by simp [generate_cte_pipeline_sql, h],
    ⟨"WITH\n"
      ++ String.intercalate ",\n\n" (st.queue.map (fun q => q.2 ++ " AS (\n" ++ q.1 ++ "\n)"))
      ++ "\n\nSELECT * FROM " ++ p.2, ?_, ?_⟩, ?_⟩
  · simp [generate_cte_pipeline_sql, composeWithSqlFrom, h, hp]
  · simp [generate_cte_pipeline_sql, composeWithSqlFrom, h, hp]
  · intro q a
    simp [generate_cte_pipeline_sql, enqueue_sql, h]

/-- Claim C5 witness: the amended behaviour at a concrete one-entry pipeline. -/
theorem c5_spent_pipeline_amended_witness :
    c5ExampleState.queue ≠ [] ∧
    ((generate_cte_pipeline_sql true c5ExampleState).1.spent = true ∧
    (∃ sql, (generate_cte_pipeline_sql true c5ExampleState).2 = .ok sql ∧
      (generate_cte_pipeline_sql true (generate_cte_pipeline_sql true c5ExampleState).1).2 = .ok sql) ∧
    (∀ q a, enqueue_sql q a (generate_cte_pipeline_sql true c5ExampleState).1 =
      .error "This pipeline has already been used (spent=True).")) :=
  ⟨by decide, c5_spent_pipeline_amended c5ExampleState (by decide)⟩

/-- Claim C6 counterexample: two independently constructed pipelines over the
identical input relation and identical stage sequence, whose `_uid` draws
differ (as independent random draws do), produce composed query texts that are
not byte-for-byte identical: the randomly suffixed seed alias appears in the
text. -/
theorem c6_counterexample :
    (composedPipelineText (some "fuzzy") c6Steps ["aaaaaa"]).toOption.isSome = true ∧
    (composedPipelineText (some "fuzzy") c6Steps ["aaaaaa"]).toOption ≠
      (composedPipelineText (some "fuzzy") c6Steps ["bbbbbb"]).toOption := by
  constructor
  · rfl
  · decide

/-- Helper: `addStep` on a checkpoint-free stage neither reads nor writes the
uid stream, so updating the stream commutes with it. -/
theorem addStep_setUids (s : RStage) (hcp : s.checkpoint = false)
    (st : DPState) (v : List String) :
    addStep s { st with uids := v } =
      (addStep s st).map (fun r => { r with uids := v }) := by
  unfold addStep
  cases h1 : output_table_name st.cp with
  | error e => simp [h1, Except.map, Except.bind, bind]
  | ok prev =>
    cases h2 : render_step_to_ctes s st.stepCounter prev with
    | error e => simp [h1, h2, Except.map, Except.bind, bind]
    | ok r =>
      cases h3 : enqueueAll r.1 st.cp with
      | error e => simp [h1, h2, h3, Except.map, Except.bind, bind]
      | ok cp' => simp [h1, h2, h3, hcp, Except.map, Except.bind, bind]

/-- Helper: `addSteps` over checkpoint-free stages commutes with updating the
uid stream. -/
theorem addSteps_setUids (steps : List RStage)
    (hnc : ∀ s ∈ steps, s.checkpoint = false) :
    ∀ (st : DPState) (v : List String),
    addSteps steps { st with uids := v } =
      (addSteps steps st).map (fun r => { r with uids := v }) := by
  induction steps with
  | nil => intro st v; rfl
  | cons s rest ih =>
    intro st v
    have hs : s.checkpoint = false := hnc s (by simp)
    have hrest : ∀ x ∈ rest, x.checkpoint = false := fun x hx => hnc x (by simp [hx])
    simp only [addSteps]
    rw [addStep_setUids s hs st v]
    cases h : addStep s st with
    | error e => simp [Except.map, Except.bind, bind]
    | ok st1 =>
      simp only [Except.map, Except.bind, bind]
      exact ih hrest st1 v

/-- Claim C6 (amended): for checkpoint-free stage sequences over a named input
relation, the composed query text is a function of the stage sequence, the
input name, and the single uid drawn for the seed alias: two runs whose seed
draw coincides produce byte-identical text (all stage-fragment aliases are
deterministic); only the random seed suffix varies between independent runs. -/
theorem c6_deterministic_up_to_seed (a : String) (steps : List RStage)
    (hnc : ∀ s ∈ steps, s.checkpoint = false) (u : String) (t1 t2 : List String) :
    composedPipelineText (some a) steps (u :: t1) =
      composedPipelineText (some a) steps (u :: t2) := by
  have hinit : duckInit (some a) (u :: t1) =
      { duckInit (some a) (u :: t2) with uids := t1 } := by
    simp [duckInit, takeUid]
  unfold composedPipelineText buildPipeline
  rw [hinit, addSteps_setUids steps hnc]
  cases h : addSteps steps (duckInit (some a) (u :: t2)) with
  | error e => simp [h, Except.map, Except.bind, bind]
  | ok r => simp [h, Except.map, Except.bind, bind]

/-- Claim C6 witness: the amended determinism at the concrete one-stage
pipeline with equal seed draws but different remaining streams. -/
theorem c6_deterministic_up_to_seed_witness :
    (∀ s ∈ c6Steps, s.checkpoint = false) ∧
    composedPipelineText (some "fuzzy") c6Steps ("aaaaaa" :: []) =
      composedPipelineText (some "fuzzy") c6Steps ("aaaaaa" :: ["zzz"]) :=
  ⟨by decide, c6_deterministic_up_to_seed "fuzzy" c6Steps (by decide) "aaaaaa" [] ["zzz"]⟩

/-- Helper: the fragment-alias mapping accumulated by `renderGo` is the alias
mapping of all fragments processed so far, in declaration order. -/
theorem renderGo_snd (sn : String) (idx : Nat) (prev : String) :
    ∀ (rest pre : List CTEStep),
    (renderGo sn idx prev rest (aliasesOfL sn idx pre)).2 =
      aliasesOfL sn idx (pre ++ rest) := by
  intro rest
  induction rest with
  | nil => intro pre; simp [renderGo]
  | cons fr rest' ih =>
    intro pre
    have hacc : aliasesOfL sn idx pre ++ [(fr.name, mkAlias idx sn fr.name)] =
        aliasesOfL sn idx (pre ++ [fr]) := by
      simp [aliasesOfL]
    calc (renderGo sn idx prev (fr :: rest') (aliasesOfL sn idx pre)).2
        = (renderGo sn idx prev rest' (aliasesOfL sn idx (pre ++ [fr]))).2 := by
          simp only [renderGo, hacc]
      _ = aliasesOfL sn idx ((pre ++ [fr]) ++ rest') := ih (pre ++ [fr])
      _ = aliasesOfL sn idx (pre ++ fr :: rest') := by simp

/-- Helper: `renderGo` produces one rendered CTE per fragment. -/
theorem renderGo_length (sn : String) (idx : Nat) (prev : String) :
    ∀ (rest : List CTEStep) (acc : List (String × String)),
    (renderGo sn idx prev rest acc).1.length = rest.length := by
  intro rest
  induction rest with
  | nil => intro acc; simp [renderGo]
  | cons fr rest' ih => intro acc; simp [renderGo, ih]

/-- Helper: closed form of the `i`-th rendered CTE: the fragment's template with
the input placeholder replaced by the previous output alias, then the aliases
of the earlier same-stage fragments applied, paired with the fragment's
allocated alias. -/
theorem renderGo_get? (sn : String) (idx : Nat) (prev : String) :
    ∀ (rest pre : List CTEStep) (i : Nat) (fr : CTEStep), rest[i]? = some fr →
    (renderGo sn idx prev rest (aliasesOfL sn idx pre)).1[i]? =
      some (applyAliases (replaceAll fr.sql inputTok prev)
              (aliasesOfL sn idx (pre ++ rest.take i)),
            mkAlias idx sn fr.name) := by
  intro rest
  induction rest with
  | nil => intro pre i fr h; simp at h
  | cons f0 rest' ih =>
    intro pre i fr h
    have hacc : aliasesOfL sn idx pre ++ [(f0.name, mkAlias idx sn f0.name)] =
        aliasesOfL sn idx (pre ++ [f0]) := by
      simp [aliasesOfL]
    cases i with
    | zero =>
      simp only [List.getElem?_cons_zero, Option.some.injEq] at h
      subst h
      simp [renderGo]
    | succ i' =>
      simp only [List.getElem?_cons_succ] at h
      have := ih (pre ++ [f0]) i' fr h
      simp only [renderGo, hacc, List.getElem?_cons_succ]
      rw [this]
      simp [List.append_assoc]

/-- Helper: looking up any fragment name present in a stage's fragment list in
the accumulated alias mapping yields that fragment's allocated alias. -/
theorem lookup_aliasesOfL (sn : String) (idx : Nat) (k : String) :
    ∀ (l : List CTEStep), k ∈ l.map CTEStep.name →
    (aliasesOfL sn idx l).lookup k = some (mkAlias idx sn k) := by
  intro l
  induction l with
  | nil => intro h; simp at h
  | cons fr rest ih =>
    intro h
    by_cases hk : k = fr.name
    · subst hk
      simp [aliasesOfL, List.lookup]
    · have hmem : k ∈ rest.map CTEStep.name := by
        simp only [List.map_cons, List.mem_cons] at h
        exact h.resolve_left hk
      have hbeq : (k == fr.name) = false := by
        simp [hk]
      simpa [aliasesOfL, List.lookup, hbeq] using ih hmem

/-- Claim C7: for every stage, stage index and previous-output alias (with the
stage construction invariants: at least one fragment, and a designated output
that names one of the fragments when given), rendering produces one
`(query_text, alias)` pair per fragment in declaration order, where the `i`-th
fragment's text has the input placeholder replaced by the previous-output alias
and every earlier same-stage fragment name replaced by its allocated alias,
and the returned output alias is that of the designated output fragment,
defaulting to the last fragment. -/
theorem c7_render_stage (step : RStage) (stepIdx : Nat) (prevAlias : String)
    (hne : step.steps ≠ [])
    (hout : step.output = none ∨ ∃ fr ∈ step.steps, step.output = some fr.name) :
    ∃ ctes outAlias,
      render_step_to_ctes step stepIdx prevAlias = .ok (ctes, outAlias) ∧
      ctes.length = step.steps.length ∧
      (∀ i fr, step.steps[i]? = some fr →
        ctes[i]? = some (applyAliases (replaceAll fr.sql inputTok prevAlias)
                           (fragAliasList step stepIdx i),
                         mkAlias stepIdx step.name fr.name)) ∧
      (∀ o, step.output = some o → outAlias = mkAlias stepIdx step.name o) ∧
      (step.output = none → ∀ lastFr, step.steps.getLast? = some lastFr →
        outAlias = mkAlias stepIdx step.name lastFr.name) := by
  have hsnd : (renderGo step.name stepIdx prevAlias step.steps []).2 =
      aliasesOfL step.name stepIdx step.steps := by
    have := renderGo_snd step.name stepIdx prevAlias step.steps []
    simpa [aliasesOfL] using this
  have hget : ∀ i fr, step.steps[i]? = some fr →
      (renderGo step.name stepIdx prevAlias step.steps []).1[i]? =
        some (applyAliases (replaceAll fr.sql inputTok prevAlias)
                (fragAliasList step stepIdx i),
              mkAlias stepIdx step.name fr.name) := by
    intro i fr h
    have := renderGo_get? step.name stepIdx prevAlias step.steps [] i fr h
    simpa [aliasesOfL, fragAliasList] using this
  have hlen : (renderGo step.name stepIdx prevAlias step.steps []).1.length =
      step.steps.length := renderGo_length step.name stepIdx prevAlias step.steps []
  cases ho : step.output with
  | some o =>
    obtain ⟨fr, hfr, heq⟩ := hout.resolve_left (by simp [ho])
    have hname : o = fr.name := by
      rw [ho] at heq; exact (Option.some.injEq _ _).mp heq
    have hmem : o ∈ step.steps.map CTEStep.name := by
      subst hname; exact List.mem_map_of_mem _ hfr
    have hlook : (aliasesOfL step.name stepIdx step.steps).lookup o =
        some (mkAlias stepIdx step.name o) :=
      lookup_aliasesOfL step.name stepIdx o step.steps hmem
    refine ⟨(renderGo step.name stepIdx prevAlias step.steps []).1,
      mkAlias stepIdx step.name o, ?_, hlen, hget, ?_, ?_⟩
    · simp [render_step_to_ctes, ho, hsnd, hlook]
    · intro o' ho'
      rw [(Option.some.injEq _ _).mp ho'.symm]
    · intro hnone; exact absurd hnone (by simp)
  | none =>
    have hlast : ∃ lastFr, step.steps.getLast? = some lastFr := by
      cases hl : step.steps.getLast? with
      | none => exact absurd (List.getLast?_eq_none_iff.mp hl) hne
      | some lastFr => exact ⟨lastFr, rfl⟩
    obtain ⟨lastFr, hl⟩ := hlast
    have hmem0 : lastFr ∈ step.steps := by
      obtain ⟨hnn, hx⟩ := List.mem_getLast?_eq_getLast (l := step.steps) (x := lastFr)
        (by simp [Option.mem_def, hl])
      rw [hx]
      exact List.getLast_mem hnn
    have hmem : lastFr.name ∈ step.steps.map CTEStep.name :=
      List.mem_map_of_mem _ hmem0
    have hlook : (aliasesOfL step.name stepIdx step.steps).lookup lastFr.name =
        some (mkAlias stepIdx step.name lastFr.name) :=
      lookup_aliasesOfL step.name stepIdx lastFr.name step.steps hmem
    refine ⟨(renderGo step.name stepIdx prevAlias step.steps []).1,
      mkAlias stepIdx step.name lastFr.name, ?_, hlen, hget, ?_, ?_⟩
    · simp [render_step_to_ctes, ho, hl, hsnd, hlook]
    · intro o' ho'; exact absurd ho' (by simp)
    · intro _ lastFr' hl'
      rw [hl] at hl'
      rw [(Option.some.injEq _ _).mp hl'.symm]

/-- Claim C7 witness: rendering the concrete two-fragment stage at stage index 2. -/
theorem c7_render_stage_witness :
    (c7ExampleStage.steps ≠ [] ∧
     (c7ExampleStage.output = none ∨
       ∃ fr ∈ c7ExampleStage.steps, c7ExampleStage.output = some fr.name)) ∧
    (∃ ctes outAlias,
      render_step_to_ctes c7ExampleStage 2 "prev0" = .ok (ctes, outAlias) ∧
      ctes.length = c7ExampleStage.steps.length ∧
      (∀ i fr, c7ExampleStage.steps[i]? = some fr →
        ctes[i]? = some (applyAliases (replaceAll fr.sql inputTok "prev0")
                           (fragAliasList c7ExampleStage 2 i),
                         mkAlias 2 c7ExampleStage.name fr.name)) ∧
      (∀ o, c7ExampleStage.output = some o → outAlias = mkAlias 2 c7ExampleStage.name o) ∧
      (c7ExampleStage.output = none → ∀ lastFr, c7ExampleStage.steps.getLast? = some lastFr →
        outAlias = mkAlias 2 c7ExampleStage.name lastFr.name)) :=
  ⟨⟨by decide, Or.inl rfl⟩,
   c7_render_stage c7ExampleStage 2 "prev0" (by decide) (Or.inl rfl)⟩

/-- Helper: the success of `render_step_to_ctes` under the stage construction
invariants. -/
theorem render_step_to_ctes_isOk (step : RStage) (stepIdx : Nat) (prevAlias : String)
    (hne : step.steps ≠ [])
    (hout : step.output = none ∨ ∃ fr ∈ step.steps, step.output = some fr.name) :
    ∃ r, render_step_to_ctes step stepIdx prevAlias = .ok r := by
  have hsnd : (renderGo step.name stepIdx prevAlias step.steps []).2 =
      aliasesOfL step.name stepIdx step.steps := by
    have := renderGo_snd step.name stepIdx prevAlias step.steps []
    simpa [aliasesOfL] using this
  cases ho : step.output with
  | some o =>
    obtain ⟨fr, hfr, heq⟩ := hout.resolve_left (by simp [ho])
    have hname : o = fr.name := by
      rw [ho] at heq; exact (Option.some.injEq _ _).mp heq
    have hmem : o ∈ step.steps.map CTEStep.name := by
      subst hname; exact List.mem_map_of_mem _ hfr
    have hlook := lookup_aliasesOfL step.name stepIdx o step.steps hmem
    exact ⟨((renderGo step.name stepIdx prevAlias step.steps []).1,
      mkAlias stepIdx step.name o), by simp [render_step_to_ctes, ho, hsnd, hlook]⟩
  | none =>
    have hlast : ∃ lastFr, step.steps.getLast? = some lastFr := by
      cases hl : step.steps.getLast? with
      | none => exact absurd (List.getLast?_eq_none_iff.mp hl) hne
      | some lastFr => exact ⟨lastFr, rfl⟩
    obtain ⟨lastFr, hl⟩ := hlast
    have hmem0 : lastFr ∈ step.steps := by
      obtain ⟨hnn, hx⟩ := List.mem_getLast?_eq_getLast (l := step.steps) (x := lastFr)
        (by simp [Option.mem_def, hl])
      rw [hx]
      exact List.getLast_mem hnn
    have hlook := lookup_aliasesOfL step.name stepIdx lastFr.name step.steps
      (List.mem_map_of_mem _ hmem0)
    exact ⟨((renderGo step.name stepIdx prevAlias step.steps []).1,
      mkAlias stepIdx step.name lastFr.name),
      by simp [render_step_to_ctes, ho, hl, hsnd, hlook]⟩

/-- Helper: enqueueing a list of CTEs on an unspent pipeline succeeds, appends
to the queue and touches nothing else. -/
theorem enqueueAll_ok (items : List (String × String)) :
    ∀ (st : CPState), st.spent = false →
    enqueueAll items st = .ok { st with queue := st.queue ++ items } := by
  induction items with
  | nil => intro st _; simp [enqueueAll, List.foldlM, pure, Except.pure]
  | cons it rest ih =>
    intro st hs
    have h1 : enqueue_sql it.1 it.2 st = .ok { st with queue := st.queue ++ [it] } := by
      simp [enqueue_sql, hs]
    have := ih { st with queue := st.queue ++ [it] } (by simp [hs])
    simp only [enqueueAll, List.foldlM] at this ⊢
    rw [h1]
    simpa using this

/-- Helper: composing a non-empty CTE list succeeds. -/
theorem composeWithSqlFrom_isOk (items : List (String × String)) (h : items ≠ []) :
    ∃ sql, composeWithSqlFrom items = .ok sql := by
  cases hl : items.getLast? with
  | none => exact absurd (List.getLast?_eq_none_iff.mp hl) h
  | some last =>
    exact ⟨"WITH\n"
      ++ String.intercalate ",\n\n" (items.map (fun p => p.2 ++ " AS (\n" ++ p.1 ++ "\n)"))
      ++ "\n\nSELECT * FROM " ++ last.2, by simp [composeWithSqlFrom, hl]⟩

/-- Claim C8: adding a stage with the materialise-checkpoint flag (under the
stage construction invariants and on a live pipeline) succeeds and ends with
the queue holding exactly one fresh seed entry selecting from the newly
materialised temporary relation, the checkpoint's composed query recorded in
the materialised blocks and executed against the engine, the spent flag still
`false`, and a later final composition still permitted. -/
theorem c8_checkpoint_add_step (st : DPState) (step : RStage)
    (hspent : st.cp.spent = false) (hq : st.cp.queue ≠ [])
    (hcp : step.checkpoint = true) (hne : step.steps ≠ [])
    (hout : step.output = none ∨ ∃ fr ∈ step.steps, step.output = some fr.name) :
    ∃ st' tmp seed sql,
      addStep step st = .ok st' ∧
      st'.cp.queue = [("SELECT * FROM " ++ tmp, seed)] ∧
      st'.cp.materialisedBlocks = st.cp.materialisedBlocks ++ [(sql, tmp)] ∧
      st'.executedStatements = st.executedStatements ++
        ["CREATE OR REPLACE TEMP TABLE " ++ tmp ++ " AS " ++ sql] ∧
      st'.cp.spent = false ∧
      ∃ finalSql, (generate_cte_pipeline_sql true st'.cp).2 = .ok finalSql := by
  obtain ⟨⟨q, sp, blocks⟩, srcN, coa, sc, uds, exs, reg⟩ := st
  replace hspent : sp = false := hspent
  replace hq : q ≠ [] := hq
  subst hspent
  obtain ⟨p, hp⟩ : ∃ p, q.getLast? = some p := by
    cases hl : q.getLast? with
    | none => exact absurd (List.getLast?_eq_none_iff.mp hl) hq
    | some p => exact ⟨p, rfl⟩
  obtain ⟨r, hr⟩ := render_step_to_ctes_isOk step sc p.2 hne hout
  have henq := enqueueAll_ok r.1 ⟨q, false, blocks⟩ rfl
  have hq2 : q ++ r.1 ≠ [] := by
    intro hcontra
    exact hq (List.append_eq_nil.mp hcontra).1
  obtain ⟨sql, hsql⟩ := composeWithSqlFrom_isOk (q ++ r.1) hq2
  obtain ⟨fsql, hfsql⟩ := composeWithSqlFrom_isOk
    [("SELECT * FROM " ++ ("__seg_" ++ (takeUid uds).1),
      "seed_" ++ (takeUid (takeUid uds).2).1)] (by simp)
  refine ⟨{ cp := ⟨[("SELECT * FROM " ++ ("__seg_" ++ (takeUid uds).1),
                     "seed_" ++ (takeUid (takeUid uds).2).1)], false,
                   blocks ++ [(sql, "__seg_" ++ (takeUid uds).1)]⟩,
            srcName := srcN,
            currentOutputAlias := "seed_" ++ (takeUid (takeUid uds).2).1,
            stepCounter := sc + 1,
            uids := (takeUid (takeUid uds).2).2,
            executedStatements := exs ++
              ["CREATE OR REPLACE TEMP TABLE " ++ ("__seg_" ++ (takeUid uds).1)
                ++ " AS " ++ sql],
            registered := reg },
    "__seg_" ++ (takeUid uds).1, "seed_" ++ (takeUid (takeUid uds).2).1, sql,
    ?_, rfl, rfl, rfl, rfl, ⟨fsql, ?_⟩⟩
  · simp only [addStep, output_table_name, hp, hr, henq, hcp, Except.bind, bind,
      if_true, materialiseCheckpoint, generate_cte_pipeline_sql,
      Bool.or_false, enqueue_sql]
    simp [hq2, hsql]
  · simp [generate_cte_pipeline_sql, hfsql]

/-- Claim C8 witness: adding the concrete checkpointed stage to a freshly
initialised pipeline. -/
theorem c8_checkpoint_add_step_witness :
    ((duckInit (some "src") ["u1", "u2", "u3"]).cp.spent = false ∧
     (duckInit (some "src") ["u1", "u2", "u3"]).cp.queue ≠ [] ∧
     c8ExampleStage.checkpoint = true ∧ c8ExampleStage.steps ≠ []) ∧
    (∃ st' tmp seed sql,
      addStep c8ExampleStage (duckInit (some "src") ["u1", "u2", "u3"]) = .ok st' ∧
      st'.cp.queue = [("SELECT * FROM " ++ tmp, seed)] ∧
      st'.cp.materialisedBlocks =
        (duckInit (some "src") ["u1", "u2", "u3"]).cp.materialisedBlocks ++ [(sql, tmp)] ∧
      st'.executedStatements = (duckInit (some "src") ["u1", "u2", "u3"]).executedStatements ++
        ["CREATE OR REPLACE TEMP TABLE " ++ tmp ++ " AS " ++ sql] ∧
      st'.cp.spent = false ∧
      ∃ finalSql, (generate_cte_pipeline_sql true st'.cp).2 = .ok finalSql) :=
  ⟨⟨rfl, by decide, rfl, by decide⟩,
   c8_checkpoint_add_step (duckInit (some "src") ["u1", "u2", "u3"]) c8ExampleStage
     rfl (by decide) rfl (by decide) (Or.inl rfl)⟩

/-- Helper: the keep condition of the deduplication window, spelled out. -/
theorem keepCond_iff (prev rest : List CanonRow) (c : CanonRow) :
    keepCond prev c rest = true ↔
      (∀ p ∈ prev, canonKey p = canonKey c →
         c.canonical_unique_id < p.canonical_unique_id) ∧
      (∀ r ∈ rest, canonKey r = canonKey c →
         c.canonical_unique_id ≤ r.canonical_unique_id) := by
  simp [keepCond, List.all_eq_true, Decidable.imp_iff_not_or, or_comm]

/-- Helper: a row kept by the deduplication window is a row of the remaining
input that strictly beats every earlier same-key row. -/
theorem rn1Go_mem : ∀ (prev rest : List CanonRow) (d : CanonRow),
    d ∈ rn1Go prev rest →
    d ∈ rest ∧ ∀ p ∈ prev, canonKey p = canonKey d →
      d.canonical_unique_id < p.canonical_unique_id := by
  intro prev rest
  induction rest generalizing prev with
  | nil => intro d h; simp [rn1Go] at h
  | cons c rest' ih =>
    intro d h
    simp only [rn1Go, List.mem_append] at h
    rcases h with h | h
    · have hk : keepCond prev c rest' = true := by
        by_contra hkF
        simp [hkF] at h
      have hd : d = c := by
        simp [hk] at h
        exact h
      subst hd
      exact ⟨List.mem_cons_self _ _, fun p hp hkey =>
        ((keepCond_iff prev rest' d).mp hk).1 p hp hkey⟩
    · obtain ⟨hdmem, hprev⟩ := ih (prev ++ [c]) d h
      exact ⟨List.mem_cons_of_mem _ hdmem,
        fun p hp hkey => hprev p (List.mem_append_left _ hp) hkey⟩

/-- Helper: the deduplication keeps at most one row per
`(original_address_concat, postcode)` partition. -/
theorem rn1Go_atMostOne : ∀ (rest prev : List CanonRow) (k : String × String),
    ((rn1Go prev rest).filter (fun d => decide (canonKey d = k))).length ≤ 1 := by
  intro rest
  induction rest with
  | nil => intro prev k; simp [rn1Go]
  | cons c rest' ih =>
    intro prev k
    simp only [rn1Go, List.filter_append, List.length_append]
    by_cases hk : keepCond prev c rest' = true
    · by_cases hck : canonKey c = k
      · have h1 : (if keepCond prev c rest' then [c] else []).filter
            (fun d => decide (canonKey d = k)) = [c] := by
          simp [hk, hck]
        rw [h1]
        have h2 : (rn1Go (prev ++ [c]) rest').filter
            (fun d => decide (canonKey d = k)) = [] := by
          rw [List.filter_eq_nil_iff]
          intro d hd
          obtain ⟨hdmem, hprev⟩ := rn1Go_mem (prev ++ [c]) rest' d hd
          simp only [decide_eq_true_eq]
          intro hdk
          have hkey : canonKey c = canonKey d := by rw [hck, hdk]
          have hlt : d.canonical_unique_id < c.canonical_unique_id :=
            hprev c (List.mem_append_right _ (List.mem_cons_self _ _)) hkey
          have hle : c.canonical_unique_id ≤ d.canonical_unique_id :=
            ((keepCond_iff prev rest' c).mp hk).2 d hdmem hkey.symm
          omega
        rw [h2]
        simp
      · have h1 : (if keepCond prev c rest' then [c] else []).filter
            (fun d => decide (canonKey d = k)) = [] := by
          simp [hk, hck]
        rw [h1]
        simpa using ih (prev ++ [c]) k
    · have h1 : (if keepCond prev c rest' then [c] else []).filter
          (fun d => decide (canonKey d = k)) = [] := by
        simp [hk]
      rw [h1]
      simpa using ih (prev ++ [c]) k

/-- Helper: whenever the remaining input has a row in a given partition (and no
accumulated earlier row blocks it), the deduplication keeps a row of that
partition achieving the minimal `canonical_unique_id` over the remaining
partition rows. -/
theorem rn1Go_exists_min : ∀ (rest prev : List CanonRow) (z : CanonRow),
    z ∈ rest →
    (∀ p ∈ prev, canonKey p = canonKey z →
       ∃ r ∈ rest, canonKey r = canonKey z ∧
         r.canonical_unique_id < p.canonical_unique_id) →
    ∃ d ∈ rn1Go prev rest, canonKey d = canonKey z ∧
      ∀ r ∈ rest, canonKey r = canonKey z →
        d.canonical_unique_id ≤ r.canonical_unique_id := by
  intro rest
  induction rest with
  | nil => intro prev z hz _; simp at hz
  | cons c rest' ih =>
    intro prev z hz hprev
    by_cases hkey : canonKey c = canonKey z
    · by_cases hmin : ∀ r ∈ rest', canonKey r = canonKey c →
          c.canonical_unique_id ≤ r.canonical_unique_id
      · have hkeep : keepCond prev c rest' = true := by
          rw [keepCond_iff]
          refine ⟨?_, hmin⟩
          intro p hp hpk
          obtain ⟨r, hr, hrk, hrlt⟩ := hprev p hp (hpk.trans hkey)
          rcases List.mem_cons.mp hr with hrc | hr'
          · subst hrc; exact hrlt
          · have : c.canonical_unique_id ≤ r.canonical_unique_id :=
              hmin r hr' (hrk.trans hkey.symm)
            omega
        refine ⟨c, ?_, hkey, ?_⟩
        · simp [rn1Go, hkeep]
        · intro r hr hrk
          rcases List.mem_cons.mp hr with hrc | hr'
          · subst hrc; exact le_refl _
          · exact hmin r hr' (hrk.trans hkey.symm)
      · push_neg at hmin
        obtain ⟨r0, hr0, hr0k, hr0lt⟩ := hmin
        have hr0lt' : r0.canonical_unique_id < c.canonical_unique_id := by omega
        have hr0z : canonKey r0 = canonKey z := hr0k.trans hkey
        have hside : ∀ p ∈ prev ++ [c], canonKey p = canonKey r0 →
            ∃ r ∈ rest', canonKey r = canonKey r0 ∧
              r.canonical_unique_id < p.canonical_unique_id := by
          intro p hp hpk
          rcases List.mem_append.mp hp with hp' | hpc
          · obtain ⟨r, hr, hrk, hrlt⟩ := hprev p hp' (hpk.trans hr0z)
            rcases List.mem_cons.mp hr with hrc | hr'
            · subst hrc
              exact ⟨r0, hr0, rfl, by omega⟩
            · exact ⟨r, hr', hrk.trans hr0z.symm, hrlt⟩
          · have hpc' : p = c := by simpa using hpc
            subst hpc'
            exact ⟨r0, hr0, rfl, hr0lt'⟩
        obtain ⟨d, hd, hdk, hdmin⟩ := ih (prev ++ [c]) r0 hr0 hside
        refine ⟨d, ?_, hdk.trans hr0z, ?_⟩
        · simp only [rn1Go, List.mem_append]
          exact Or.inr hd
        · intro r hr hrk
          rcases List.mem_cons.mp hr with hrc | hr'
          · subst hrc
            have : d.canonical_unique_id ≤ r0.canonical_unique_id :=
              hdmin r0 hr0 rfl
            omega
          · exact hdmin r hr' (hrk.trans hr0z.symm)
    · have hz' : z ∈ rest' := by
        rcases List.mem_cons.mp hz with hzc | hz'
        · subst hzc; exact absurd rfl hkey
        · exact hz'
      have hside : ∀ p ∈ prev ++ [c], canonKey p = canonKey z →
          ∃ r ∈ rest', canonKey r = canonKey z ∧
            r.canonical_unique_id < p.canonical_unique_id := by
        intro p hp hpk
        rcases List.mem_append.mp hp with hp' | hpc
        · obtain ⟨r, hr, hrk, hrlt⟩ := hprev p hp' hpk
          rcases List.mem_cons.mp hr with hrc | hr'
          · subst hrc; exact absurd hrk hkey
          · exact ⟨r, hr', hrk, hrlt⟩
        · have hpc' : p = c := by simpa using hpc
          subst hpc'
          exact absurd hpk hkey
      obtain ⟨d, hd, hdk, hdmin⟩ := ih (prev ++ [c]) z hz' hside
      refine ⟨d, ?_, hdk, ?_⟩
      · simp only [rn1Go, List.mem_append]
        exact Or.inr hd
      · intro r hr hrk
        rcases List.mem_cons.mp hr with hrc | hr'
        · subst hrc; exact absurd hrk hkey
        · exact hdmin r hr' hrk

/-- Helper: `find?` returns the head of the filtered list. -/
theorem find?_eq_head?_filter {α : Type} (p : α → Bool) :
    ∀ (l : List α), l.find? p = (l.filter p).head? := by
  intro l
  induction l with
  | nil => simp
  | cons a rest ih =>
    by_cases ha : p a = true
    · simp [List.find?_cons, ha]
    · have ha' : p a = false := by
        cases hpa : p a with
        | false => rfl
        | true => exact absurd hpa ha
      rw [List.find?_cons, ha', List.filter_cons, ha']
      simp only [Bool.false_eq_true, if_false]
      exact ih

/-- Helper: a list of length at most one containing an element is that
singleton. -/
theorem length_le_one_mem_singleton {α : Type} {l : List α} {d : α}
    (hlen : l.length ≤ 1) (hd : d ∈ l) : l = [d] := by
  cases l with
  | nil => simp at hd
  | cons a rest =>
    cases rest with
    | nil =>
      have : d = a := by simpa using hd
      rw [this]
    | cons b t => simp at hlen

/-- Helper: the exact-match left join has at most one deduplicated canonical
row per fuzzy key, so the stage annotates each fuzzy row independently:
`annotateExactMatches` is a per-row map. -/
theorem annotateExactMatches_eq_map (fuzzy : List FuzzyRow) (canonR : List CanonRow) :
    annotateExactMatches fuzzy canonR = fuzzy.map (exactAnnRow canonR) := by
  induction fuzzy with
  | nil => rfl
  | cons f rest ih =>
    have hone : ((dedupCanonical canonR).filter
        (fun c => decide (canonKey c = fuzzyKey f))).length ≤ 1 :=
      rn1Go_atMostOne canonR [] (fuzzyKey f)
    have hfind : (dedupCanonical canonR).find?
        (fun c => decide (canonKey c = fuzzyKey f)) =
        ((dedupCanonical canonR).filter
          (fun c => decide (canonKey c = fuzzyKey f))).head? :=
      find?_eq_head?_filter _ _
    simp only [annotateExactMatches, List.map_cons, List.flatten_cons] at ih ⊢
    rw [ih]
    cases hcs : (dedupCanonical canonR).filter
        (fun c => decide (canonKey c = fuzzyKey f)) with
    | nil =>
      simp [exactAnnRow, hfind, hcs]
    | cons c t =>
      cases t with
      | nil =>
        simp [exactAnnRow, hfind, hcs]
      | cons c2 t2 => simp [hcs] at hone

/-- Helper: whenever some canonical row matches the fuzzy key, the exact-match
stage's deduplicated lookup finds a canonical row of that key achieving the
minimal `canonical_unique_id` over all matching canonical rows. -/
theorem dedup_find?_min (canonR : List CanonRow) (f : FuzzyRow)
    (c0 : CanonRow) (hc0 : c0 ∈ canonR) (hkey : canonKey c0 = fuzzyKey f) :
    ∃ d, (dedupCanonical canonR).find? (fun c => decide (canonKey c = fuzzyKey f)) = some d ∧
      d ∈ canonR ∧ canonKey d = fuzzyKey f ∧
      ∀ c ∈ canonR, canonKey c = fuzzyKey f →
        d.canonical_unique_id ≤ c.canonical_unique_id := by
  obtain ⟨d, hd, hdk, hdmin⟩ := rn1Go_exists_min canonR [] c0 hc0 (by simp)
  have hdkf : canonKey d = fuzzyKey f := hdk.trans hkey
  have hdmem : d ∈ canonR := (rn1Go_mem [] canonR d hd).1
  have hfilter : (dedupCanonical canonR).filter
      (fun c => decide (canonKey c = fuzzyKey f)) = [d] := by
    apply length_le_one_mem_singleton (rn1Go_atMostOne canonR [] (fuzzyKey f))
    rw [List.mem_filter]
    exact ⟨hd, by simp [hdkf]⟩
  refine ⟨d, ?_, hdmem, hdkf, ?_⟩
  · rw [find?_eq_head?_filter, hfilter]
    rfl
  · intro c hc hck
    exact hdmin c hc (hck.trans hkey.symm)

/-- Claim C10: when canonical rows share the same
`(original_address_concat, postcode)` pair, the exact-match stage resolves a
matching fuzzy row to the canonical row with the smallest
`canonical_unique_id` (the canonical side is deduplicated by the row-number
window ordered on `canonical_unique_id`, keeping only the first), and the
resolved id is unchanged under any permutation of the canonical rows, so the
tie-break is deterministic and independent of canonical row arrival order. -/
theorem c10_exact_min_id_tiebreak (canonR canonR' : List CanonRow) (f : FuzzyRow)
    (hperm : canonR.Perm canonR')
    (c0 : CanonRow) (hc0 : c0 ∈ canonR) (hkey : canonKey c0 = fuzzyKey f) :
    ∃ m,
      (∃ r, annotateExactMatches [f] canonR = [r] ∧
        r.resolved_canonical_id = some m ∧ r.match_reason = some MatchReason.EXACT) ∧
      (∃ c ∈ canonR, canonKey c = fuzzyKey f ∧ c.canonical_unique_id = m) ∧
      (∀ c ∈ canonR, canonKey c = fuzzyKey f → m ≤ c.canonical_unique_id) ∧
      (∃ r', annotateExactMatches [f] canonR' = [r'] ∧
        r'.resolved_canonical_id = some m) := by
  obtain ⟨d, hfind, hdmem, hdkf, hdmin⟩ := dedup_find?_min canonR f c0 hc0 hkey
  obtain ⟨d', hfind', hdmem', hdkf', hdmin'⟩ := dedup_find?_min canonR' f c0
    (hperm.mem_iff.mp hc0) hkey
  have hsame : d'.canonical_unique_id = d.canonical_unique_id := by
    have h1 : d.canonical_unique_id ≤ d'.canonical_unique_id :=
      hdmin d' (hperm.mem_iff.mpr hdmem') hdkf'
    have h2 : d'.canonical_unique_id ≤ d.canonical_unique_id :=
      hdmin' d (hperm.mem_iff.mp hdmem) hdkf
    omega
  refine ⟨d.canonical_unique_id, ⟨exactAnnRow canonR f, ?_, ?_, ?_⟩,
    ⟨d, hdmem, hdkf, rfl⟩, hdmin, ⟨exactAnnRow canonR' f, ?_, ?_⟩⟩
  · rw [annotateExactMatches_eq_map]; rfl
  · simp [exactAnnRow, hfind]
  · simp [exactAnnRow, hfind]
  · rw [annotateExactMatches_eq_map]; rfl
  · simp [exactAnnRow, hfind', hsame]

/-- Claim C10 witness: two canonical rows share the key; both arrival orders
resolve the fuzzy row to the smaller id 90. -/
theorem c10_exact_min_id_tiebreak_witness :
    (wCanonHi ∈ [wCanonHi, wCanonLo] ∧ canonKey wCanonHi = fuzzyKey wFuzzyA ∧
     ([wCanonHi, wCanonLo] : List CanonRow).Perm [wCanonLo, wCanonHi]) ∧
    (∃ m,
      (∃ r, annotateExactMatches [wFuzzyA] [wCanonHi, wCanonLo] = [r] ∧
        r.resolved_canonical_id = some m ∧ r.match_reason = some MatchReason.EXACT) ∧
      (∃ c ∈ [wCanonHi, wCanonLo], canonKey c = fuzzyKey wFuzzyA ∧
        c.canonical_unique_id = m) ∧
      (∀ c ∈ [wCanonHi, wCanonLo], canonKey c = fuzzyKey wFuzzyA →
        m ≤ c.canonical_unique_id) ∧
      (∃ r', annotateExactMatches [wFuzzyA] [wCanonLo, wCanonHi] = [r'] ∧
        r'.resolved_canonical_id = some m)) :=
  ⟨⟨by decide, by decide, List.Perm.swap _ _ _⟩,
   c10_exact_min_id_tiebreak [wCanonHi, wCanonLo] [wCanonLo, wCanonHi] wFuzzyA
     (List.Perm.swap _ _ _) wCanonHi (by decide) (by decide)⟩

/-- Helper: the exact-match annotation never changes a row's internal id. -/
theorem exactAnnRow_ukam (canonR : List CanonRow) (f : FuzzyRow) :
    (exactAnnRow canonR f).ukam_address_id = f.ukam_address_id := by
  unfold exactAnnRow
  cases (dedupCanonical canonR).find? (fun c => decide (canonKey c = fuzzyKey f)) with
  | none => rfl
  | some c => rfl

/-- Helper: a row the exact-match stage does not resolve is carried through
unchanged. -/
theorem exactAnnRow_unresolved (canonR : List CanonRow) (f : FuzzyRow)
    (h : (exactAnnRow canonR f).match_reason ≠ some MatchReason.EXACT) :
    exactAnnRow canonR f = f := by
  cases hfind : (dedupCanonical canonR).find? (fun c => decide (canonKey c = fuzzyKey f)) with
  | none => simp [exactAnnRow, hfind]
  | some c => exact absurd (by simp [exactAnnRow, hfind]) h

/-- Helper: the exact-match stage, as run by the orchestrator, is the per-row
annotation map. -/
theorem runStage_exact_eq_map (fa : FindAddress) (fz : List FuzzyRow)
    (canon : List CanonRow) :
    runStage fa .exact_matches fz canon =
      fz.map (exactAnnRow (restrictCanonicalExact fz canon)) := by
  unfold runStage
  exact annotateExactMatches_eq_map fz (restrictCanonicalExact fz canon)

/-- Helper: once the accumulated matches cover every fuzzy row id, the
anti-join working set is empty. -/
theorem getUnmatchedSubset_covered (fz mu : List FuzzyRow)
    (h : ∀ f ∈ fz, ∃ m ∈ mu, m.ukam_address_id = f.ukam_address_id) :
    getUnmatchedSubset fz (some mu) = [] := by
  unfold getUnmatchedSubset
  rw [List.filter_eq_nil_iff]
  intro f hf hp
  obtain ⟨m, hm, hmu⟩ := h f hf
  rw [List.all_eq_true] at hp
  have hne := hp m hm
  simp only [decide_eq_true_eq] at hne
  exact hne hmu

/-- Helper: the loop returns immediately, executing nothing, when the working
set is already empty. -/
theorem runLoop_break (fa : FindAddress) (fz : List FuzzyRow) (canon : List CanonRow)
    (mu : Option (List FuzzyRow)) (h : (getUnmatchedSubset fz mu).isEmpty = true) :
    ∀ stages, runLoop fa fz canon stages mu = (mu, []) := by
  intro stages
  cases stages with
  | nil => rfl
  | cons s rest => simp [runLoop, h]

/-- Helper: master characterisation of the stage loop with the always-on
exact-match stage first: since the whole first-stage result (one annotated row
per input row) is folded into the accumulated matches, the anti-join leaves
nothing for any later stage, which therefore never runs. -/
theorem runLoop_exact_first (fa : FindAddress) (fz : List FuzzyRow)
    (canon : List CanonRow) (rest : List StageName) :
    runLoop fa fz canon (.exact_matches :: rest) none =
      if fz.isEmpty then (none, [])
      else (some (runStage fa .exact_matches fz canon), [(.exact_matches, fz)]) := by
  by_cases hfz : fz.isEmpty = true
  · simp [runLoop, getUnmatchedSubset, hfz]
  · have hcov : getUnmatchedSubset fz
        (some (runStage fa .exact_matches fz canon)) = [] := by
      apply getUnmatchedSubset_covered
      intro f hf
      refine ⟨exactAnnRow (restrictCanonicalExact fz canon) f, ?_, exactAnnRow_ukam _ _⟩
      rw [runStage_exact_eq_map]
      exact List.mem_map_of_mem _ hf
    have hbreak := runLoop_break fa fz canon
      (some (runStage fa .exact_matches fz canon)) (by simp [hcov]) rest
    simp [runLoop, getUnmatchedSubset, hfz, hbreak]

/-- Helper: a successful normalisation extends the seen-list without
duplicates. -/
theorem normGo_nodup : ∀ (l : List String) (out ns : List StageName),
    normGo l out = .ok ns → out.Nodup → ns.Nodup := by
  intro l
  induction l with
  | nil =>
    intro out ns h hnd
    simp only [normGo] at h
    cases h
    exact hnd
  | cons item rest ih =>
    intro out ns h hnd
    simp only [normGo] at h
    cases hp : parseStageName item with
    | none => rw [hp] at h; exact absurd h (by simp)
    | some name =>
      rw [hp] at h
      by_cases ha : name ∈ alwaysOn
      · simp [ha] at h
      · by_cases ho : name ∈ out
        · simp [ha, ho] at h
        · simp only [ha, ho, if_false, if_neg] at h
          have hnd' : (out ++ [name]).Nodup := by
            rw [List.nodup_append]
            refine ⟨hnd, List.nodup_singleton _, ?_⟩
            intro a haout hain
            have : a = name := by simpa using hain
            exact ho (this ▸ haout)
          exact ih (out ++ [name]) ns h hnd'

/-- Helper: every stage accepted by a successful normalisation is either
carried over from the seen-list or is not an always-on stage. -/
theorem normGo_notAlwaysOn : ∀ (l : List String) (out ns : List StageName),
    normGo l out = .ok ns → ∀ s ∈ ns, s ∈ out ∨ s ∉ alwaysOn := by
  intro l
  induction l with
  | nil =>
    intro out ns h s hs
    simp only [normGo] at h
    cases h
    exact Or.inl hs
  | cons item rest ih =>
    intro out ns h s hs
    simp only [normGo] at h
    cases hp : parseStageName item with
    | none => rw [hp] at h; exact absurd h (by simp)
    | some name =>
      rw [hp] at h
      by_cases ha : name ∈ alwaysOn
      · simp [ha] at h
      · by_cases ho : name ∈ out
        · simp [ha, ho] at h
        · simp only [ha, ho, if_false, if_neg] at h
          rcases ih (out ++ [name]) ns h s hs with hcase | hcase
          · rcases List.mem_append.mp hcase with h1 | h1
            · exact Or.inl h1
            · have : s = name := by simpa using h1
              exact Or.inr (this ▸ ha)
          · exact Or.inr hcase

/-- Helper: a successfully normalised optional stage list has no duplicates
and never contains the always-on exact-match stage. -/
theorem normalise_props (enabled : Option (List String)) (ns : List StageName)
    (h : normaliseEnabledStages enabled = .ok ns) :
    ns.Nodup ∧ ∀ s ∈ ns, s ≠ StageName.exact_matches := by
  cases enabled with
  | none =>
    simp only [normaliseEnabledStages] at h
    cases h
    exact ⟨List.nodup_nil, by simp⟩
  | some l =>
    simp only [normaliseEnabledStages] at h
    refine ⟨normGo_nodup l [] ns h List.nodup_nil, ?_⟩
    intro s hs
    rcases normGo_notAlwaysOn l [] ns h s hs with hc | hc
    · simp at hc
    · intro he
      exact hc (by simp [he, alwaysOn])

/-- Helper: the ordered stage list is the always-on exact-match stage followed
by the normalised optional stages. -/
theorem buildOrdered_eq (ns : List StageName) (hnd : ns.Nodup)
    (hne : ∀ s ∈ ns, s ≠ StageName.exact_matches) :
    buildOrdered ns = StageName.exact_matches :: ns := by
  have hgen : ∀ (l : List StageName) (pre : List StageName), l.Nodup →
      (∀ s ∈ l, s ≠ StageName.exact_matches ∧ s ∉ pre) →
      l.foldl (fun acc s => if s ∈ acc then acc else acc ++ [s])
        (StageName.exact_matches :: pre) =
        StageName.exact_matches :: (pre ++ l) := by
    intro l
    induction l with
    | nil => intro pre _ _; simp
    | cons s1 rest ih =>
      intro pre hnd' hl
      have hs1 : s1 ∉ StageName.exact_matches :: pre := by
        intro hmem
        rcases List.mem_cons.mp hmem with he | hp
        · exact (hl s1 (List.mem_cons_self _ _)).1 he
        · exact (hl s1 (List.mem_cons_self _ _)).2 hp
      have hstep : (StageName.exact_matches :: pre) ++ [s1] =
          StageName.exact_matches :: (pre ++ [s1]) := by simp
      simp only [List.foldl_cons, if_neg hs1, hstep]
      rw [ih (pre ++ [s1]) hnd'.of_cons ?_]
      · simp
      · intro s hsr
        refine ⟨(hl s (List.mem_cons_of_mem _ hsr)).1, ?_⟩
        intro hmem
        rcases List.mem_append.mp hmem with hp | hone
        · exact (hl s (List.mem_cons_of_mem _ hsr)).2 hp
        · have : s = s1 := by simpa using hone
          rw [List.nodup_cons] at hnd'
          exact hnd'.1 (this ▸ hsr)
  have := hgen ns [] hnd (fun s hs => ⟨hne s hs, by simp⟩)
  simpa [buildOrdered, alwaysOn] using this

/-- Helper: `_finalise_results` raises the ambiguous-column binder error for
every input: the duplicated annotation columns are a property of the joined
schema, not of the rows. -/
theorem finaliseResults_error (fuzzy mu : List FuzzyRow) :
    finaliseResults fuzzy mu = .error ambiguousColumnMessage := rfl

/-- Helper: full characterisation of a deterministic match pass with a valid
enabled list: on an empty fuzzy input the loop never runs and the input comes
back unchanged; on a nonempty input the exact-match stage runs on the whole
input, its entire annotated result becomes the accumulated matches, no later
stage executes, and `_finalise_results` then raises the ambiguous-column
binder error, which propagates out of the call. -/
theorem pass_char (fa : FindAddress) (fz : List FuzzyRow) (canon : List CanonRow)
    (enabled : Option (List String)) (ns : List StageName)
    (hn : normaliseEnabledStages enabled = .ok ns) :
    runDeterministicMatchPass fa fz canon enabled =
      if fz.isEmpty then
        .ok { output := fz, matchesUnion := none, trace := [] }
      else
        .error ambiguousColumnMessage := by
  obtain ⟨hnd, hna⟩ := normalise_props enabled ns hn
  have hord := buildOrdered_eq ns hnd hna
  have hloop := runLoop_exact_first fa fz canon ns
  unfold runDeterministicMatchPass
  rw [hn]
  simp only [Except.bind, bind, hord, hloop]
  by_cases hfz : fz.isEmpty = true
  · simp [hfz]
  · simp [hfz, finaliseResults_error]

/-- Claim C1 (code bug): for every nonempty fuzzy input and every valid
enabled stage subset, `run_deterministic_match_pass` does not return the
claimed one-row-per-input relation at all — it raises the ambiguous-column
binder error inside `_finalise_results`, because both sides of the final USING
left join carry `resolved_canonical_id`, `canonical_ukam_address_id` and
`match_reason` and the reorder select references them unqualified. -/
theorem c1_finalise_binder_error (fa : FindAddress) (fz : List FuzzyRow)
    (canon : List CanonRow) (enabled : Option (List String)) (ns : List StageName)
    (hn : normaliseEnabledStages enabled = .ok ns) (hne : fz ≠ []) :
    runDeterministicMatchPass fa fz canon enabled = .error ambiguousColumnMessage := by
  have hfz : fz.isEmpty ≠ true := by
    intro h
    exact hne (List.isEmpty_iff.mp h)
  rw [pass_char fa fz canon enabled ns hn, if_neg hfz]

/-- Claim C1 witness: the failing input — a nonempty two-row fuzzy input with
the trie stage enabled raises instead of returning a relation. -/
theorem c1_finalise_binder_error_witness :
    (normaliseEnabledStages (some ["trie"]) = .ok [StageName.trie] ∧
     ([wFuzzyA, wFuzzyB] : List FuzzyRow) ≠ []) ∧
    runDeterministicMatchPass faNone [wFuzzyA, wFuzzyB] [wCanonLo] (some ["trie"]) =
      .error ambiguousColumnMessage :=
  ⟨⟨by decide, by decide⟩,
   c1_finalise_binder_error faNone [wFuzzyA, wFuzzyB] [wCanonLo] (some ["trie"])
     [StageName.trie] (by decide) (by decide)⟩

/-- Helper: with pairwise-distinct row ids, filtering the fuzzy input on a
member row's id yields exactly that row. -/
theorem filter_ukam_self (fz : List FuzzyRow)
    (hids : (fz.map FuzzyRow.ukam_address_id).Nodup) :
    ∀ f ∈ fz, fz.filter
      (fun x => decide (x.ukam_address_id = f.ukam_address_id)) = [f] := by
  induction fz with
  | nil => intro f hf; simp at hf
  | cons a rest ih =>
    intro f hf
    rw [List.map_cons, List.nodup_cons] at hids
    rcases List.mem_cons.mp hf with hfa | hfr
    · subst hfa
      have hrest : rest.filter
          (fun x => decide (x.ukam_address_id = f.ukam_address_id)) = [] := by
        rw [List.filter_eq_nil_iff]
        intro x hx
        simp only [decide_eq_true_eq]
        intro hxe
        exact hids.1 (hxe ▸ List.mem_map_of_mem _ hx)
      simp [List.filter_cons, hrest]
    · have hne : a.ukam_address_id ≠ f.ukam_address_id := by
        intro he
        exact hids.1 (he ▸ List.mem_map_of_mem _ hfr)
      simp only [List.filter_cons, decide_eq_true_eq]
      rw [if_neg hne]
      exact ih hids.2 f hfr

/-- Claim C2 (code bug): when the always-on exact-match stage resolves a fuzzy
row, that resolution — and only it — sits in the accumulated matches for the
row's id and no later stage ever executes (for every trie behaviour and every
valid enabled list), but `run_deterministic_match_pass` then raises the
ambiguous-column binder error inside `_finalise_results`, so the final output
in which the claim asserts the resolved id survives is never produced. -/
theorem c2_precedence_no_final_output (fa : FindAddress) (fz : List FuzzyRow)
    (canon : List CanonRow) (enabled : Option (List String)) (ns : List StageName)
    (f : FuzzyRow) (cid : Nat)
    (hn : normaliseEnabledStages enabled = .ok ns)
    (hids : (fz.map FuzzyRow.ukam_address_id).Nodup)
    (hf : f ∈ fz)
    (hres : (exactAnnRow (restrictCanonicalExact fz canon) f).resolved_canonical_id =
      some cid) :
    (runLoop fa fz canon (buildOrdered ns) none).1 =
      some (runStage fa .exact_matches fz canon) ∧
    (∀ m ∈ runStage fa .exact_matches fz canon,
      m.ukam_address_id = f.ukam_address_id → m.resolved_canonical_id = some cid) ∧
    (runLoop fa fz canon (buildOrdered ns) none).2 = [(.exact_matches, fz)] ∧
    runDeterministicMatchPass fa fz canon enabled = .error ambiguousColumnMessage := by
  have hfz : fz.isEmpty ≠ true := by
    intro h
    rw [List.isEmpty_iff.mp h] at hf
    simp at hf
  obtain ⟨hnd, hna⟩ := normalise_props enabled ns hn
  have hord := buildOrdered_eq ns hnd hna
  have hloop := runLoop_exact_first fa fz canon ns
  rw [if_neg hfz] at hloop
  refine ⟨by rw [hord, hloop], ?_, by rw [hord, hloop],
    by rw [pass_char fa fz canon enabled ns hn, if_neg hfz]⟩
  intro m hm hmid
  rw [runStage_exact_eq_map] at hm
  obtain ⟨g, hg, hgm⟩ := List.mem_map.mp hm
  have hgu : g.ukam_address_id = f.ukam_address_id := by
    rw [hgm.symm] at hmid
    rw [exactAnnRow_ukam] at hmid
    exact hmid
  have hgeq : g = f := by
    have hmem : g ∈ fz.filter
        (fun x => decide (x.ukam_address_id = f.ukam_address_id)) := by
      rw [List.mem_filter]
      exact ⟨hg, by simp [hgu]⟩
    rw [filter_ukam_self fz hids f hf] at hmem
    simpa using hmem
  rw [hgm.symm, hgeq]
  exact hres

/-- Claim C2 witness: the exact stage resolves the first fuzzy row to id 90 in
the accumulated matches, the trie stage never runs, and the call raises. -/
theorem c2_precedence_no_final_output_witness :
    (normaliseEnabledStages (some ["trie"]) = .ok [StageName.trie] ∧
     (([wFuzzyA, wFuzzyB].map FuzzyRow.ukam_address_id).Nodup) ∧
     wFuzzyA ∈ [wFuzzyA, wFuzzyB] ∧
     (exactAnnRow (restrictCanonicalExact [wFuzzyA, wFuzzyB] wCanonList)
        wFuzzyA).resolved_canonical_id = some 90) ∧
    ((runLoop faNone [wFuzzyA, wFuzzyB] wCanonList
        (buildOrdered [StageName.trie]) none).1 =
      some (runStage faNone .exact_matches [wFuzzyA, wFuzzyB] wCanonList) ∧
    (∀ m ∈ runStage faNone .exact_matches [wFuzzyA, wFuzzyB] wCanonList,
      m.ukam_address_id = wFuzzyA.ukam_address_id →
        m.resolved_canonical_id = some 90) ∧
    (runLoop faNone [wFuzzyA, wFuzzyB] wCanonList
        (buildOrdered [StageName.trie]) none).2 =
      [(.exact_matches, [wFuzzyA, wFuzzyB])] ∧
    runDeterministicMatchPass faNone [wFuzzyA, wFuzzyB] wCanonList (some ["trie"]) =
      .error ambiguousColumnMessage) :=
  ⟨⟨by decide, by decide, by decide, by decide⟩,
   c2_precedence_no_final_output faNone [wFuzzyA, wFuzzyB] wCanonList
     (some ["trie"]) [StageName.trie] wFuzzyA 90
     (by decide) (by decide) (by decide) (by decide)⟩

/-- Helper: no prior outputs before the first iteration. -/
theorem priorOutputs_zero (fa : FindAddress) (canon : List CanonRow)
    (tr : List (StageName × List FuzzyRow)) :
    priorOutputs fa canon tr 0 = [] := by
  simp [priorOutputs]

/-- Helper: the prior outputs before iteration `k + 1` of an extended trace are
the head stage's output followed by the prior outputs before iteration `k` of
the tail. -/
theorem priorOutputs_succ_cons (fa : FindAddress) (canon : List CanonRow)
    (s : StageName) (ws : List FuzzyRow) (tr : List (StageName × List FuzzyRow))
    (k : Nat) :
    priorOutputs fa canon ((s, ws) :: tr) (k + 1) =
      runStage fa s ws canon ++ priorOutputs fa canon tr k := by
  simp [priorOutputs, List.take_succ_cons]

/-- Helper: the anti-join against an empty accumulated-match list keeps the
whole input. -/
theorem getUnmatchedSubset_some_nil (fz : List FuzzyRow) :
    getUnmatchedSubset fz (some []) = fz := by
  simp [getUnmatchedSubset]

/-- Helper: trace invariant of the stage loop, generalised over the already
accumulated matches: the executed stages are an initial prefix of the stage
list; every executed iteration's recorded working set is the anti-join of the
fuzzy input against the accumulated matches so far and is nonempty; and when
the loop stopped before exhausting the stage list, the residual anti-join set
is empty. -/
theorem runLoop_trace_invariant (fa : FindAddress) (fz : List FuzzyRow)
    (canon : List CanonRow) :
    ∀ (stages : List StageName) (acc : List FuzzyRow) (mu : Option (List FuzzyRow)),
    ((mu = none ∧ acc = []) ∨ mu = some acc) →
    ((runLoop fa fz canon stages mu).2.map Prod.fst =
       stages.take (runLoop fa fz canon stages mu).2.length) ∧
    (∀ k s ws, (runLoop fa fz canon stages mu).2[k]? = some (s, ws) →
       ws = getUnmatchedSubset fz
         (some (acc ++ priorOutputs fa canon (runLoop fa fz canon stages mu).2 k)) ∧
       ws ≠ []) ∧
    ((runLoop fa fz canon stages mu).2.length < stages.length →
       getUnmatchedSubset fz
         (some (acc ++ priorOutputs fa canon (runLoop fa fz canon stages mu).2
           (runLoop fa fz canon stages mu).2.length)) = []) := by
  intro stages
  induction stages with
  | nil =>
    intro acc mu hmu
    refine ⟨rfl, ?_, ?_⟩
    · intro k s ws h
      simp [runLoop] at h
    · intro h
      simp [runLoop] at h
  | cons s0 rest ih =>
    intro acc mu hmu
    have hum : getUnmatchedSubset fz mu = getUnmatchedSubset fz (some acc) := by
      rcases hmu with ⟨h1, h2⟩ | h1
      · subst h1
        subst h2
        rw [getUnmatchedSubset_some_nil]
        rfl
      · rw [h1]
    by_cases hemp : (getUnmatchedSubset fz mu).isEmpty = true
    · have hloop : runLoop fa fz canon (s0 :: rest) mu = (mu, []) := by
        simp [runLoop, hemp]
      rw [hloop]
      refine ⟨rfl, ?_, ?_⟩
      · intro k s ws h
        simp at h
      · intro _
        show getUnmatchedSubset fz (some (acc ++ priorOutputs fa canon [] 0)) = []
        rw [priorOutputs_zero, List.append_nil, hum.symm]
        exact List.isEmpty_iff.mp hemp
    · have humne : getUnmatchedSubset fz mu ≠ [] := by
        intro h
        rw [h] at hemp
        exact hemp rfl
      have hloop : runLoop fa fz canon (s0 :: rest) mu =
          ((runLoop fa fz canon rest
              (some (acc ++ runStage fa s0 (getUnmatchedSubset fz mu) canon))).1,
           (s0, getUnmatchedSubset fz mu) ::
           (runLoop fa fz canon rest
              (some (acc ++ runStage fa s0 (getUnmatchedSubset fz mu) canon))).2) := by
        rcases hmu with ⟨h1, h2⟩ | h1
        · subst h1
          subst h2
          simp [runLoop, hemp]
        · subst h1
          simp [runLoop, hemp]
      obtain ⟨ih1, ih2, ih3⟩ := ih (acc ++ runStage fa s0 (getUnmatchedSubset fz mu) canon)
        (some (acc ++ runStage fa s0 (getUnmatchedSubset fz mu) canon)) (Or.inr rfl)
      rw [hloop]
      refine ⟨?_, ?_, ?_⟩
      · simp only [List.map_cons, List.length_cons, List.take_succ_cons]
        rw [ih1]
      · intro k s ws h
        cases k with
        | zero =>
          simp only [List.getElem?_cons_zero, Option.some.injEq, Prod.mk.injEq] at h
          obtain ⟨hs, hws⟩ := h
          subst hws
          refine ⟨?_, humne⟩
          rw [priorOutputs_zero, List.append_nil]
          exact hum
        | succ k' =>
          simp only [List.getElem?_cons_succ] at h
          obtain ⟨hws, hwsne⟩ := ih2 k' s ws h
          refine ⟨?_, hwsne⟩
          rw [priorOutputs_succ_cons, hws, List.append_assoc]
      · intro hlen
        simp only [List.length_cons] at hlen
        have hlen' : (runLoop fa fz canon rest
            (some (acc ++ runStage fa s0 (getUnmatchedSubset fz mu) canon))).2.length <
            rest.length := by omega
        have h3 := ih3 hlen'
        rw [List.append_assoc] at h3
        simp only [List.length_cons, priorOutputs_succ_cons]
        exact h3

/-- Claim C3: for every stage list (in particular the ordered list built by
`run_deterministic_match_pass`), the executed iterations of the stage loop
form an initial prefix of the stage list, every executed iteration's working
set is exactly the anti-join of the fuzzy input against the union of the
previous stages' outputs (the whole input on the first iteration) and is never
empty — so when that anti-join set is empty the loop has stopped without
running the stage — and whenever the loop stopped before exhausting the stage
list, the residual anti-join set is empty. -/
theorem c3_antijoin_shortcircuit (fa : FindAddress) (fz : List FuzzyRow)
    (canon : List CanonRow) (stages : List StageName) :
    ((runLoop fa fz canon stages none).2.map Prod.fst =
       stages.take (runLoop fa fz canon stages none).2.length) ∧
    (∀ k s ws, (runLoop fa fz canon stages none).2[k]? = some (s, ws) →
       ws = getUnmatchedSubset fz
         (some (priorOutputs fa canon (runLoop fa fz canon stages none).2 k)) ∧
       ws ≠ []) ∧
    ((runLoop fa fz canon stages none).2.length < stages.length →
       getUnmatchedSubset fz
         (some (priorOutputs fa canon (runLoop fa fz canon stages none).2
           (runLoop fa fz canon stages none).2.length)) = []) := by
  have h := runLoop_trace_invariant fa fz canon stages [] none (Or.inl ⟨rfl, rfl⟩)
  simpa only [List.nil_append] using h

/-- Claim C4 (code bug, evaluated at the failing input): with the trie stage
enabled (ordered stage list `[exact_matches, trie]`), the loop folds the whole
exact-stage result into the accumulated matches, so a row the stage left
unresolved (`match_reason` still `UNMATCHED`, null resolved id) is present in
the accumulated union, and — because its id then survives no anti-join — the
trie stage never executes (the trace holds only the exact stage). -/
theorem c4_unresolved_rows_accumulated :
    buildOrdered [StageName.trie] = [StageName.exact_matches, StageName.trie] ∧
    runLoop faNone [wFuzzyA] [] [StageName.exact_matches, StageName.trie] none =
      (some [wFuzzyA], [(StageName.exact_matches, [wFuzzyA])]) ∧
    wFuzzyA.match_reason = some MatchReason.UNMATCHED ∧
    wFuzzyA.resolved_canonical_id = none := by
  refine ⟨by decide, ?_, rfl, rfl⟩
  decide

/-- Helper: validating a stage list errors as soon as it holds an unknown name,
a name already seen, or an always-on stage name. -/
theorem normGo_error : ∀ (l : List String) (out : List StageName),
    ((∃ s ∈ l, parseStageName s = none) ∨
     (∃ s ∈ l, ∃ n, parseStageName s = some n ∧ n ∈ alwaysOn) ∨
     (∃ s ∈ l, ∃ n, parseStageName s = some n ∧ n ∈ out) ∨
     ¬ l.Nodup) →
    ∃ msg, normGo l out = .error msg := by
  intro l
  induction l with
  | nil =>
    intro out h
    rcases h with ⟨s, hs, _⟩ | ⟨s, hs, _⟩ | ⟨s, hs, _⟩ | hnd
    · simp at hs
    · simp at hs
    · simp at hs
    · exact absurd List.nodup_nil hnd
  | cons item rest ih =>
    intro out h
    cases hp : parseStageName item with
    | none => exact ⟨unknownStageMessage item, by simp [normGo, hp]⟩
    | some name =>
      by_cases ha : name ∈ alwaysOn
      · exact ⟨stageValue name ++ " is always enabled and should not be provided.",
          by simp [normGo, hp, ha]⟩
      · by_cases ho : name ∈ out
        · exact ⟨"Duplicate exact matching stage specified: " ++ stageValue name,
            by simp [normGo, hp, ha, ho]⟩
        · have hrest : (∃ s ∈ rest, parseStageName s = none) ∨
              (∃ s ∈ rest, ∃ n, parseStageName s = some n ∧ n ∈ alwaysOn) ∨
              (∃ s ∈ rest, ∃ n, parseStageName s = some n ∧ n ∈ out ++ [name]) ∨
              ¬ rest.Nodup := by
            rcases h with ⟨s, hs, hsp⟩ | ⟨s, hs, n, hsp, hna⟩ | ⟨s, hs, n, hsp, hno⟩ | hnd
            · rcases List.mem_cons.mp hs with hsi | hsr
              · exact absurd hsp (by rw [hsi, hp]; simp)
              · exact Or.inl ⟨s, hsr, hsp⟩
            · rcases List.mem_cons.mp hs with hsi | hsr
              · rw [hsi, hp] at hsp
                have : n = name := by simpa using hsp.symm
                exact absurd (this ▸ hna) ha
              · exact Or.inr (Or.inl ⟨s, hsr, n, hsp, hna⟩)
            · rcases List.mem_cons.mp hs with hsi | hsr
              · rw [hsi, hp] at hsp
                have : n = name := by simpa using hsp.symm
                exact absurd (this ▸ hno) ho
              · exact Or.inr (Or.inr (Or.inl ⟨s, hsr, n, hsp,
                  List.mem_append_left _ hno⟩))
            · rw [List.nodup_cons] at hnd
              by_cases hmem : item ∈ rest
              · exact Or.inr (Or.inr (Or.inl ⟨item, hmem, name, hp,
                  List.mem_append_right _ (List.mem_cons_self _ _)⟩))
              · refine Or.inr (Or.inr (Or.inr ?_))
                intro hndr
                exact hnd ⟨hmem, hndr⟩
          obtain ⟨msg, hmsg⟩ := ih (out ++ [name]) hrest
          exact ⟨msg, by simp [normGo, hp, ha, ho, hmsg]⟩

/-- Claim C9: an `enabled_stage_names` list containing an unknown stage name, a
duplicate, or the always-on exact-match stage makes the pass fail before any
stage executes, and an unknown name at the head yields exactly the unknown-stage
message listing the valid enableable stage names. -/
theorem c9_stage_validation (l : List String)
    (hoff : (∃ s ∈ l, parseStageName s = none) ∨ ¬ l.Nodup ∨ "exact_matches" ∈ l) :
    (∃ msg, normaliseEnabledStages (some l) = .error msg) ∧
    (∀ (fa : FindAddress) (fz : List FuzzyRow) (canon : List CanonRow),
      ∃ msg, runDeterministicMatchPass fa fz canon (some l) = .error msg) ∧
    (∀ s t, parseStageName s = none →
      normaliseEnabledStages (some (s :: t)) = .error (unknownStageMessage s) ∧
      unknownStageMessage s = "Unknown exact matching stage: '" ++ s ++
        "'. Available stages: " ++
        String.intercalate ", " (availableDeterministicStages.map stageValue)) := by
  have herr : ∃ msg, normGo l [] = .error msg := by
    apply normGo_error
    rcases hoff with h | h | h
    · exact Or.inl h
    · exact Or.inr (Or.inr (Or.inr h))
    · exact Or.inr (Or.inl ⟨"exact_matches", h, .exact_matches, rfl, by simp [alwaysOn]⟩)
  obtain ⟨msg, hmsg⟩ := herr
  refine ⟨⟨msg, hmsg⟩, ?_, ?_⟩
  · intro fa fz canon
    refine ⟨msg, ?_⟩
    unfold runDeterministicMatchPass
    simp [normaliseEnabledStages, hmsg, Except.bind, bind]
  · intro s t hs
    exact ⟨by simp [normaliseEnabledStages, normGo, hs], rfl⟩

/-- Claim C9 witness: the unknown name "postcode", a duplicate "trie", and the
always-on "exact_matches" each make the pass fail; the unknown-name message
lists the enableable stage set. -/
theorem c9_stage_validation_witness :
    ((∃ s ∈ ["postcode"], parseStageName s = none) ∨
      ¬ (["postcode"] : List String).Nodup ∨ "exact_matches" ∈ ["postcode"]) ∧
    ((∃ msg, normaliseEnabledStages (some ["postcode"]) = .error msg) ∧
     (∀ (fa : FindAddress) (fz : List FuzzyRow) (canon : List CanonRow),
       ∃ msg, runDeterministicMatchPass fa fz canon (some ["postcode"]) = .error msg) ∧
     (∀ s t, parseStageName s = none →
       normaliseEnabledStages (some (s :: t)) = .error (unknownStageMessage s) ∧
       unknownStageMessage s = "Unknown exact matching stage: '" ++ s ++
         "'. Available stages: " ++
         String.intercalate ", " (availableDeterministicStages.map stageValue))) :=
  ⟨by decide,
   c9_stage_validation ["postcode"] (by decide)⟩
